import Mathlib

/-!
Shallow embedding of `happy-tree` (Go): the functional graph over the domain
`[0, numNodes)` induced by the digit-squaring transform, its cycle finder,
subtree measures, and the sunburst layout arithmetic.

Sources: `src/main.go` and `src/unnamed/part_003` (an alternative revision of
the same `package main`; where the two revisions differ, both are embedded and
the suffix `003` marks the `part_003` variant).

Modelling conventions:
* Go slices of `Node` become `List Node`; the (always in-bounds in the code)
  index `n[i]` becomes `idx n i`, total via a default node, matching the Go
  zero value of `Node`.
* Go functions whose recursion is not structural (`maybeLoop`'s forward walk,
  `countSrcs`, `nodeLevels`) take an explicit fuel argument and return
  `Option` results; `none` models non-termination/out-of-fuel.  Lemmas show
  concrete fuel bounds suffice on the inputs the program reaches.
* `float64` angular arithmetic is embedded in exact rationals `ℚ`.  The single
  `math.IsNaN` test in `drawLoop` fires exactly when `srcTotal = 0` (then every
  numerator is also `0`, and `0.0/0.0` is the only NaN the expression can
  produce), so it is embedded as a test on the denominator.
-/

namespace HappyTree

/-- Node record from main.go / part_003 (`Num`, `Dst`, `Srcs`). -/
structure Node where
  Num : Nat
  Dst : Nat
  Srcs : List Nat
deriving Repr, DecidableEq

/-- Go zero value of `Node`, used for (never taken) out-of-bounds reads. -/
def emptyNode : Node := ⟨0, 0, []⟩

instance : Inhabited Node := ⟨emptyNode⟩

/-- `type Nodes []Node`. -/
abbrev Nodes := List Node

/-- The Go array read `n[i]`. -/
def idx (n : Nodes) (i : Nat) : Node := n.getD i emptyNode

/-- `const numNodes = 0x1000000`. -/
def numNodes : Nat := 0x1000000

/-- `happify` (main.go): format `i` in hex and sum the squares of the digit
values given by `charToDec`.  Digit order does not affect the sum, so the
string is embedded as `Nat.digits 16` (for `i = 0` the string `"0"` likewise
contributes `0`). -/
def happify (i : Nat) : Nat :=
  ((Nat.digits 16 i).map (fun d => d * d)).sum

/-- `happifyColor` (main.go): per-channel `happify`, reassembled as RGB. -/
def happifyColor (i : Nat) : Nat :=
  let r := happify (i &&& 0xFF0000)
  let g := happify (i &&& 0x00FF00)
  let b := happify (i &&& 0x0000FF)
  ((r &&& 0xFF) <<< 16) ||| ((g &&& 0xFF) <<< 8) ||| (b &&& 0xFF)

/-- `intToDst` (part_003): format `i` as `"%06X"` (zero-padded to at least six
hex digits) and sum the squares of the digit values.  The padding digits are
`0` and contribute `0` to the sum. -/
def intToDst (i : Nat) : Nat :=
  (((Nat.digits 16 i) ++ List.replicate (6 - (Nat.digits 16 i).length) 0).map
    (fun d => d * d)).sum

/-- `isInSet` (main.go / part_003): linear scan for a node with `Num == i`. -/
def isInSet (n : Nodes) (i : Nat) : Bool :=
  n.any (fun nn => nn.Num == i)

/-- One iteration of the `createNodes` loop body:
`dst := transform(i); n[i].Num = i; n[i].Dst = dst;
 n[dst].Srcs = append(n[dst].Srcs, i)`. -/
def createStep (f : Nat → Nat) (n : Nodes) (i : Nat) : Nodes :=
  let dst := f i
  let n1 := n.set i { idx n i with Num := i, Dst := dst }
  n1.set dst { idx n1 dst with Srcs := (idx n1 dst).Srcs ++ [i] }

/-- `createNodes`, generic in the domain size and the transform (main.go uses
`numNodes` and `happifyColor`, part_003 uses `numNodes` and `intToDst`):
start from `N` zero-value nodes and run the loop body for `i = 0 .. N-1`. -/
def createNodesG (N : Nat) (f : Nat → Nat) : Nodes :=
  (List.range N).foldl (createStep f) (List.replicate N emptyNode)

/-- `createNodes` as in main.go. -/
def createNodes : Nodes := createNodesG numNodes happifyColor

/-- `createNodes` as in part_003 (same loop, transform `intToDst`). -/
def createNodes003 : Nodes := createNodesG numNodes intToDst

/-- The forward walk of `maybeLoop` (identical in main.go and part_003, up to a
progress log line): append `n[i]` to the path, stop with the path if `dst`
closes back on the origin, stop with `nil` (embedded as `some []`) if `dst`
revisits any other path member, else continue from `dst`.  `fuel` bounds the
number of iterations; `none` models running out (shown unreachable at
`fuel = n.length + 1` for the graphs the program builds). -/
def maybeLoopGo : Nat → Nodes → Nat → Nat → Nodes → Option Nodes
  | 0, _, _, _, _ => none
  | fuel + 1, n, origI, i, loop =>
    let loop2 := loop ++ [idx n i]
    let dst := (idx n i).Dst
    if dst = origI then some loop2
    else if loop2.any (fun ln => ln.Num == dst) then some []
    else maybeLoopGo fuel n origI dst loop2

/-- `maybeLoop(n, i, loop)`: run the walk with fuel `n.length + 1` (enough for
any walk that visits pairwise-distinct ids of the graph). -/
def maybeLoop (n : Nodes) (i : Nat) (loop : Nodes) : Nodes :=
  (maybeLoopGo (n.length + 1) n i i loop).getD []

/-- One iteration of main.go's `findLoops` outer loop.  The state is the pair
(found loops, current `loop` accumulator slice).  The skip check transcribes
the source faithfully, shadowing bug included: `for i := range loops` rebinds
`i` to the indices of `loops`, and `isInSet(loop, i)` consults the (always
empty) accumulator `loop`, not the found cycles. -/
def findLoopsStep (n : Nodes) (st : List Nodes × Nodes) (i : Nat) :
    List Nodes × Nodes :=
  if (List.range st.1.length).any (fun k => isInSet st.2 k) then st
  else
    let rloop := maybeLoop n i st.2
    if 0 < rloop.length then (st.1 ++ [rloop], ([] : Nodes)) else st

/-- `findLoops` (main.go), generic in the iteration bound (the source uses the
constant `numNodes`). -/
def findLoopsN (N : Nat) (n : Nodes) : List Nodes :=
  ((List.range N).foldl (findLoopsStep n) ([], [])).1

/-- `findLoops` (main.go) at the source's bound `numNodes`. -/
def findLoops (n : Nodes) : List Nodes := findLoopsN numNodes n

/-- One iteration of part_003's `findLoops` outer loop: here the skip check is
`for _, loop := range loops { for _, ln := range loop { if ln.Num == i ... } }`,
a genuine membership test in the cycles found so far. -/
def findLoops003Step (n : Nodes) (st : List Nodes × Nodes) (i : Nat) :
    List Nodes × Nodes :=
  if st.1.any (fun loop => loop.any (fun ln => ln.Num == i)) then st
  else
    let rloop := maybeLoop n i st.2
    if 0 < rloop.length then (st.1 ++ [rloop], ([] : Nodes)) else st

/-- `findLoops` (part_003), generic in the iteration bound. -/
def findLoops003N (N : Nat) (n : Nodes) : List Nodes :=
  ((List.range N).foldl (findLoops003Step n) ([], [])).1

/-- `findLoops` (part_003) at the source's bound `numNodes`. -/
def findLoops003 (n : Nodes) : List Nodes := findLoops003N numNodes n

/-- The inner scan of `dedupLoops` over one loop's members: returns the updated
`found` set (marks persist even when the loop is then skipped, as with the Go
map) and whether the loop is kept. -/
def dedupGo : List Nat → Nodes → List Nat × Bool
  | found, [] => (found, true)
  | found, nd :: rest =>
    if found.contains nd.Num then (found, false)
    else dedupGo (nd.Num :: found) rest

/-- One iteration of `dedupLoops`'s outer loop: scan one loop against the
`found` set, and append it to the result iff no member was seen before. -/
def dedupStep (st : List Nat × List Nodes) (loop : Nodes) :
    List Nat × List Nodes :=
  let r := dedupGo st.1 loop
  (r.1, if r.2 then st.2 ++ [loop] else st.2)

/-- `dedupLoops` (main.go): keep a loop iff none of its members was seen
before, marking members as they are scanned. -/
def dedupLoops (loops : List Nodes) : List Nodes :=
  (loops.foldl dedupStep (([] : List Nat), ([] : List Nodes))).2

/-- Sum a fallible per-element value over a list: `some` of the sum when every
element yields `some`, else `none`.  Used for the `c += countSrcs(...)` loop
accumulation in `countSrcs`. -/
def optSum (g : Nat → Option Nat) : List Nat → Option Nat
  | [] => some 0
  | si :: rest =>
    match g si, optSum g rest with
    | some c, some s => some (c + s)
    | _, _ => none

/-- `countSrcs(n, nn)` = `1 +` the sum of `countSrcs(n, n[si])` over
`si ∈ nn.Srcs`, with explicit recursion-depth fuel: descending into a child
consumes one fuel unit, `none` models running out (the Go call not
terminating within that depth). -/
def countSrcs : Nat → Nodes → Node → Option Nat
  | 0, _, _ => none
  | fuel + 1, n, nn =>
    (optSum (fun si => countSrcs fuel n (idx n si)) nn.Srcs).map (fun s => 1 + s)

/-- The value `countSrcs(n, n[si])` as used by the drawing code, with the
canonical fuel `n.length` (sufficient whenever the call terminates at all);
`0` stands for a non-terminating call, which the drawing claims exclude. -/
def countSrcsVal (n : Nodes) (si : Nat) : Nat :=
  (countSrcs n.length n (idx n si)).getD 0

/-- Running maximum of a fallible per-element value over the non-excluded
elements of a list (skipping an excluded id costs nothing, matching the Go
`continue outerLoop` in `nodeLevels`). -/
def optMaxSrcs (excluding : Nodes) (g : Nat → Option Nat) : List Nat → Option Nat
  | [] => some 0
  | sni :: rest =>
    if excluding.any (fun en => en.Num == sni) then optMaxSrcs excluding g rest
    else
      match g sni, optMaxSrcs excluding g rest with
      | some c, some m => some (max c m)
      | _, _ => none

/-- `nodeLevels(n, nn, excluding)` (identical in main.go and part_003):
`1 +` the maximum of `nodeLevels(n, n[sni], nil)` over non-excluded sources
(`0` maximum when there are none), with explicit recursion-depth fuel. -/
def nodeLevels : Nat → Nodes → Node → Nodes → Option Nat
  | 0, _, _, _ => none
  | fuel + 1, n, nn, excluding =>
    (optMaxSrcs excluding (fun sni => nodeLevels fuel n (idx n sni) [])
      nn.Srcs).map (fun m => m + 1)

/-- `loopLevels(n, loop)` (identical in both revisions): maximum over the
members of `nodeLevels(n, ln, loop)`, starting from `0`. -/
def loopLevels (fuel : Nat) (n : Nodes) (loop : Nodes) : Option Nat :=
  loop.foldl
    (fun acc ln =>
      match acc, nodeLevels fuel n ln loop with
      | some m, some c => some (max m c)
      | _, _ => none)
    (some 0)

/-- `totalLevels` (main.go): `levels += loopLevels(n, loop)` over the loops —
no per-loop increment. -/
def totalLevels (fuel : Nat) (n : Nodes) (loops : List Nodes) : Option Nat :=
  loops.foldl
    (fun acc loop =>
      match acc, loopLevels fuel n loop with
      | some t, some l => some (t + l)
      | _, _ => none)
    (some 0)

/-- `totalLevels` (part_003): `levels += loopLevels(n, loop); levels++` over
the loops — one extra level per loop. -/
def totalLevels003 (fuel : Nat) (n : Nodes) (loops : List Nodes) : Option Nat :=
  loops.foldl
    (fun acc loop =>
      match acc, loopLevels fuel n loop with
      | some t, some l => some (t + l + 1)
      | _, _ => none)
    (some 0)

/-- The wedge record passed to `drawCurve` (field `end` of the Go struct is a
Lean keyword and is embedded as `stop`).  Angles are exact rationals. -/
structure curve where
  level : Nat
  color : Nat
  start : ℚ
  stop : ℚ
deriving Repr, DecidableEq

/-- First loop of `drawNode` (main.go lines 252-261): `srcCounts[j]` is `0`
for excluded children (the Go array entry is left at its zero value) and
`countSrcs(n, n[sni])` otherwise; `srcTotal` is their sum. -/
def drawNodeWeights (n : Nodes) (nn : Node) (excluding : Nodes) : List Nat :=
  nn.Srcs.map (fun sni => if isInSet excluding sni then 0 else countSrcsVal n sni)

/-- Second loop of `drawNode` (main.go lines 263-275): walk the sources paired
with their counts, skip excluded children, give each remaining child the span
`[start, start + (srcCounts[j]/srcTotal)*diff)` and advance `start`.  The
result lists the arguments `(sni, start, end)` of the recursive calls (each
recursive call is made with `excluding = nil` and `level + 1`). -/
def drawNodeSpansGo (excluding : Nodes) (srcTotal : Nat) (diff : ℚ) :
    List (Nat × Nat) → ℚ → List (Nat × ℚ × ℚ)
  | [], _ => []
  | (sni, c) :: rest, start =>
    if isInSet excluding sni then drawNodeSpansGo excluding srcTotal diff rest start
    else
      (sni, start, start + (c : ℚ) / (srcTotal : ℚ) * diff) ::
        drawNodeSpansGo excluding srcTotal diff rest
          (start + (c : ℚ) / (srcTotal : ℚ) * diff)

/-- One invocation of `drawNode(n, i, nn, excluding, level, start, end)`
(main.go lines 242-276): the wedge drawn for `nn` itself, and the list of
child spans recursed into.  In `ℚ`, `c / 0 = 0`; the claims about this
function assume at least one qualifying child with terminating `countSrcs`,
which forces `srcTotal ≥ 1` so the float code divides by a nonzero total. -/
def drawNode (n : Nodes) (nn : Node) (excluding : Nodes) (level : Nat)
    (start stop : ℚ) : curve × List (Nat × ℚ × ℚ) :=
  let srcCounts := drawNodeWeights n nn excluding
  let srcTotal := srcCounts.sum
  (⟨level, nn.Num, start, stop⟩,
   drawNodeSpansGo excluding srcTotal (stop - start) (nn.Srcs.zip srcCounts) start)

/-- First loop of `drawLoop` (main.go lines 292-303): for each member, the sum
of `countSrcs` over its sources outside the loop; `srcTotal` is the grand
total. -/
def drawLoopWeights (n : Nodes) (loop : Nodes) : List Nat :=
  loop.map (fun ln =>
    ((ln.Srcs.filter (fun si => !isInSet loop si)).map
      (fun si => countSrcsVal n si)).sum)

/-- Second loop of `drawLoop` (main.go lines 305-313): each member's fraction
is `srcCounts[j]/srcTotal`, with the `math.IsNaN` fallback to `1`.  Since the
counts are non-negative, `srcTotal = 0` forces every `srcCounts[j] = 0`, and
`0.0/0.0` is the only NaN the float expression can produce — so the NaN test
is embedded as `srcTotal = 0`. -/
def drawLoopSpansGo (srcTotal : Nat) : List (Node × Nat) → ℚ → List (Node × ℚ × ℚ)
  | [], _ => []
  | (ln, c) :: rest, start =>
    let fract : ℚ := if srcTotal = 0 then 1 else (c : ℚ) / (srcTotal : ℚ)
    (ln, start, start + fract) :: drawLoopSpansGo srcTotal rest (start + fract)

/-- One invocation of `drawLoop(n, i, loop, level)` (main.go lines 288-314):
the list of `drawNode` calls it makes, as `(member, start, end)` triples
starting from angle `0` (each call is made with `excluding = loop` at ring
`level`). -/
def drawLoop (n : Nodes) (loop : Nodes) : List (Node × ℚ × ℚ) :=
  let ws := drawLoopWeights n loop
  drawLoopSpansGo ws.sum (loop.zip ws) 0

/-! ### Range of the transforms (C7) -/

lemma happify_le (i : Nat) : happify i ≤ (Nat.digits 16 i).length * 225 := by
  have h := List.sum_le_card_nsmul ((Nat.digits 16 i).map (fun d => d * d)) 225 ?_
  · simpa [happify, smul_eq_mul] using h
  · intro x hx
    obtain ⟨d, hd, rfl⟩ := List.mem_map.1 hx
    have hd16 : d < 16 := Nat.digits_lt_base (by norm_num) hd
    nlinarith

lemma happifyColor_lt (i : Nat) : happifyColor i < 2 ^ 24 := by
  have hr : happify (i &&& 0xFF0000) &&& 0xFF < 2 ^ 8 :=
    lt_of_le_of_lt Nat.and_le_right (by norm_num)
  have hg : happify (i &&& 0x00FF00) &&& 0xFF < 2 ^ 8 :=
    lt_of_le_of_lt Nat.and_le_right (by norm_num)
  have hb : happify (i &&& 0x0000FF) &&& 0xFF < 2 ^ 8 :=
    lt_of_le_of_lt Nat.and_le_right (by norm_num)
  have h1 : (happify (i &&& 0xFF0000) &&& 0xFF) <<< 16 < 2 ^ 24 := by
    have := Nat.shiftLeft_lt (m := 16) hr
    norm_num at this ⊢
    exact this
  have h2 : (happify (i &&& 0x00FF00) &&& 0xFF) <<< 8 < 2 ^ 24 := by
    have := Nat.shiftLeft_lt (m := 8) hg
    norm_num at this ⊢
    omega
  have h3 : happify (i &&& 0x0000FF) &&& 0xFF < 2 ^ 24 :=
    lt_of_lt_of_le hb (by norm_num)
  exact Nat.bitwise_lt (Nat.bitwise_lt h1 h2) h3

lemma intToDst_lt (i : Nat) (hi : i < numNodes) : intToDst i < numNodes := by
  have hlen : (Nat.digits 16 i).length ≤ 6 := by
    rcases Nat.eq_zero_or_pos i with h0 | hpos
    · simp [h0]
    · have h16 : i < 16 ^ 6 := by
        have : (16 : Nat) ^ 6 = numNodes := by norm_num [numNodes]
        omega
      have := (Nat.lt_pow_iff_log_lt (by norm_num : (1:Nat) < 16)
        (by omega : i ≠ 0)).1 h16
      rw [Nat.digits_len 16 i (by norm_num) (by omega : i ≠ 0)]
      omega
  have hpad : intToDst i = happify i := by
    unfold intToDst happify
    rw [List.map_append, List.sum_append]
    have : (List.replicate (6 - (Nat.digits 16 i).length) 0).map
        (fun d => d * d) = List.replicate (6 - (Nat.digits 16 i).length) 0 := by
      simp
    rw [this]
    simp
  have := happify_le i
  have : intToDst i ≤ 6 * 225 := by
    rw [hpad]
    calc happify i ≤ (Nat.digits 16 i).length * 225 := happify_le i
    _ ≤ 6 * 225 := by omega
  have hN : (1350 : Nat) < numNodes := by norm_num [numNodes]
  omega

lemma createNodesG_length (N : Nat) (f : Nat → Nat) :
    (createNodesG N f).length = N := by
  unfold createNodesG
  have : ∀ (l : List Nat) (n : Nodes),
      ((l.foldl (createStep f) n)).length = n.length := by
    intro l
    induction l with
    | nil => intro n; rfl
    | cons a l ih =>
      intro n
      rw [List.foldl_cons, ih]
      simp [createStep]
  rw [this]
  simp

/-- C7: for every `i` in `[0, numNodes)` the transform lands back in
`[0, numNodes)` — both `happifyColor` (main.go) and `intToDst` (part_003) —
and `createNodes` has exactly `numNodes` entries, so the write `n[dst].Srcs`
in `createNodes` is in bounds and no out-of-range fatal branch can be
reached. -/
theorem C7_transform_in_range (i : Nat) (hi : i < numNodes) :
    happifyColor i < numNodes ∧ intToDst i < numNodes ∧
      createNodes.length = numNodes := by
  refine ⟨?_, intToDst_lt i hi, createNodesG_length _ _⟩
  have := happifyColor_lt i
  have hN : numNodes = 2 ^ 24 := by norm_num [numNodes]
  omega

theorem C7_transform_in_range_witness :
    (0xABCDEF : Nat) < numNodes ∧
      (happifyColor 0xABCDEF < numNodes ∧ intToDst 0xABCDEF < numNodes ∧
        createNodes.length = numNodes) :=
  ⟨by decide, C7_transform_in_range 0xABCDEF (by decide)⟩

/-! ### Self-loops (C8) -/

/-- C8: for an id whose node points at itself (`n[id].Dst == id`),
`maybeLoop(n, id, empty)` returns the length-1 cycle `[n[id]]`: the walk
appends `n[id]`, sees `dst == origI` on the first iteration and stops. -/
theorem C8_self_loop (n : Nodes) (id : Nat) (_hid : id < n.length)
    (hself : (idx n id).Dst = id) : maybeLoop n id [] = [idx n id] := by
  unfold maybeLoop
  have h1 : maybeLoopGo (n.length + 1) n id id [] = some [idx n id] := by
    simp [maybeLoopGo, hself]
  rw [h1]
  rfl

theorem C8_self_loop_witness :
    ((0 : Nat) < ([⟨0, 0, [0]⟩] : Nodes).length ∧
      (idx [⟨0, 0, [0]⟩] 0).Dst = 0) ∧
      maybeLoop [⟨0, 0, [0]⟩] 0 [] = [idx [⟨0, 0, [0]⟩] 0] :=
  ⟨⟨by decide, by decide⟩, C8_self_loop _ 0 (by decide) (by decide)⟩

/-! ### totalLevels (C2) and the findLoops skip (C3) -/

/-- C2: main.go's `totalLevels` sums plain `loopLevels` with no per-loop `+1`,
while the claim (and part_003's `totalLevels`, and main.go's own render loop,
which advances `level += loopLevels(loop); level++`) requires
`sum (loopLevels + 1)`.  On two disjoint self-loops each `loopLevels` is `1`:
the claimed total is `4`, part_003 returns `4`, main.go returns `2`. -/
theorem C2_totalLevels_missing_increment :
    loopLevels 2 [⟨0, 0, [0]⟩, ⟨1, 1, [1]⟩] [⟨0, 0, [0]⟩] = some 1 ∧
    loopLevels 2 [⟨0, 0, [0]⟩, ⟨1, 1, [1]⟩] [⟨1, 1, [1]⟩] = some 1 ∧
    totalLevels 2 [⟨0, 0, [0]⟩, ⟨1, 1, [1]⟩] [[⟨0, 0, [0]⟩], [⟨1, 1, [1]⟩]] =
      some 2 ∧
    totalLevels003 2 [⟨0, 0, [0]⟩, ⟨1, 1, [1]⟩] [[⟨0, 0, [0]⟩], [⟨1, 1, [1]⟩]] =
      some 4 := by
  decide

/-- C3: main.go's skip check (`for i := range loops { if isInSet(loop, i) }`)
shadows the node id and consults the always-empty accumulator `loop`, so no id
is ever skipped: on the 2-cycle `0 ↔ 1`, the walk is started again from id `1`
(a member of the cycle already recorded from id `0`) and records a rotated
duplicate.  part_003's `findLoops` implements the membership test the claim
describes and does skip id `1`. -/
theorem C3_skip_is_broken :
    findLoopsN 2 [⟨0, 1, [1]⟩, ⟨1, 0, [0]⟩] =
      [[⟨0, 1, [1]⟩, ⟨1, 0, [0]⟩], [⟨1, 0, [0]⟩, ⟨0, 1, [1]⟩]] ∧
    findLoops003N 2 [⟨0, 1, [1]⟩, ⟨1, 0, [0]⟩] = [[⟨0, 1, [1]⟩, ⟨1, 0, [0]⟩]] := by
  decide

/-! ### drawLoop degenerate fallback (C5) -/

/-- Graph with the 2-cycle `0 ↔ 1` and the transient node `2 → 0`. -/
def sampleLoopGraph : Nodes := [⟨0, 1, [1, 2]⟩, ⟨1, 0, [0]⟩, ⟨2, 0, []⟩]

/-- The cycle `[0, 1]` of `sampleLoopGraph`, as found by `maybeLoop`. -/
def sampleLoop : Nodes := [⟨0, 1, [1, 2]⟩, ⟨1, 0, [0]⟩]

/-- C5 counterexample: in `sampleLoopGraph`, cycle member `1` has qualifying
inbound weight `0` while its sibling has weight `1`; the code computes
`fract = 0/1 = 0` (not NaN, so no fallback) and gives member `1` the
zero-width span `[1, 1)`, not the full-width wedge the claim promises a
zero-weight member. -/
theorem C5_zero_weight_counterexample :
    drawLoopWeights sampleLoopGraph sampleLoop = [1, 0] ∧
    drawLoop sampleLoopGraph sampleLoop =
      [(⟨0, 1, [1, 2]⟩, 0, 1), (⟨1, 0, [0]⟩, 1, 1)] ∧
    ¬ ∀ p ∈ drawLoop sampleLoopGraph sampleLoop,
        ((p.1.Srcs.filter (fun si => !isInSet sampleLoop si)).map
            (fun si => countSrcsVal sampleLoopGraph si)).sum = 0 →
          p.2.2 - p.2.1 = 1 := by
  have hw : drawLoopWeights sampleLoopGraph sampleLoop = [1, 0] := by decide
  have hd : drawLoop sampleLoopGraph sampleLoop =
      [(⟨0, 1, [1, 2]⟩, 0, 1), (⟨1, 0, [0]⟩, 1, 1)] := by
    simp only [drawLoop, hw]
    norm_num [sampleLoop, drawLoopSpansGo]
  refine ⟨hw, hd, ?_⟩
  intro h
  have := h (⟨1, 0, [0]⟩, 1, 1) (by rw [hd]; simp) (by decide)
  norm_num at this

lemma drawLoopSpansGo_zero :
    ∀ (l : List (Node × Nat)) (start : ℚ) (p : Node × ℚ × ℚ),
      p ∈ drawLoopSpansGo 0 l start → p.2.2 - p.2.1 = 1 := by
  intro l
  induction l with
  | nil => intro start p hp; simp [drawLoopSpansGo] at hp
  | cons hd tl ih =>
    intro start p hp
    obtain ⟨ln, c⟩ := hd
    simp only [drawLoopSpansGo, List.mem_cons] at hp
    rcases hp with rfl | hp
    · norm_num
    · exact ih _ p hp

/-- C5 (amended): the `fract = 1` fallback fires exactly when the *total*
qualifying weight over all cycle members is zero (only then is the float
division `0.0/0.0` NaN); in that case every member receives a full-width span
and no division-by-zero value reaches the emitted wedge.  (A member with zero
weight but nonzero sibling total instead gets a zero-width wedge, per the
counterexample.) -/
theorem C5_nan_fallback_full_span (n loop : Nodes)
    (h : (drawLoopWeights n loop).sum = 0) :
    ∀ p ∈ drawLoop n loop, p.2.2 - p.2.1 = 1 := by
  intro p hp
  simp only [drawLoop, h] at hp
  exact drawLoopSpansGo_zero _ _ p hp

theorem C5_nan_fallback_witness :
    (drawLoopWeights [⟨0, 0, [0]⟩] [⟨0, 0, [0]⟩]).sum = 0 ∧
      ∀ p ∈ drawLoop [⟨0, 0, [0]⟩] [⟨0, 0, [0]⟩], p.2.2 - p.2.1 = 1 :=
  ⟨by decide, C5_nan_fallback_full_span _ _ (by decide)⟩

/-! ### countSrcs positivity (C9) -/

lemma countSrcs_pos {fuel : Nat} {n : Nodes} {nn : Node} {c : Nat}
    (h : countSrcs fuel n nn = some c) : 1 ≤ c := by
  cases fuel with
  | zero => simp [countSrcs] at h
  | succ fuel =>
    simp only [countSrcs, Option.map_eq_some'] at h
    obtain ⟨s, _, rfl⟩ := h
    omega

lemma drawNodeWeights_sum_pos (n : Nodes) (nn : Node) (excluding : Nodes)
    (h : ∃ si ∈ nn.Srcs, isInSet excluding si = false ∧
      (countSrcs n.length n (idx n si)).isSome = true) :
    1 ≤ (drawNodeWeights n nn excluding).sum := by
  obtain ⟨si, hmem, hex, hsome⟩ := h
  obtain ⟨c, hc⟩ := Option.isSome_iff_exists.1 hsome
  have hval : countSrcsVal n si = c := by
    simp [countSrcsVal, hc]
  have hcpos : 1 ≤ c := countSrcs_pos hc
  have helem : (if isInSet excluding si then 0 else countSrcsVal n si) ∈
      drawNodeWeights n nn excluding :=
    List.mem_map_of_mem _ hmem
  rw [hex] at helem
  simp only [Bool.false_eq_true, if_false] at helem
  have hle : countSrcsVal n si ≤ (drawNodeWeights n nn excluding).sum :=
    List.single_le_sum (fun x _ => Nat.zero_le x) _ helem
  omega

/-- C9: `countSrcs` always returns at least `1` (the node itself); hence in
`drawNode`, whenever at least one non-excluded child exists (and its
`countSrcs` call terminates), the sibling total `srcTotal` is at least `1`,
so the per-child fraction `srcCounts[j]/srcTotal` divides by a nonzero total
and is never NaN — the NaN fallback is only needed in `drawLoop`. -/
theorem C9_countSrcs_pos_no_nan :
    (∀ (fuel : Nat) (n : Nodes) (nn : Node) (c : Nat),
      countSrcs fuel n nn = some c → 1 ≤ c) ∧
    (∀ (n : Nodes) (nn : Node) (excluding : Nodes),
      (∃ si ∈ nn.Srcs, isInSet excluding si = false ∧
        (countSrcs n.length n (idx n si)).isSome = true) →
      1 ≤ (drawNodeWeights n nn excluding).sum) :=
  ⟨fun _ _ _ _ h => countSrcs_pos h, drawNodeWeights_sum_pos⟩

theorem C9_countSrcs_pos_no_nan_witness :
    ((1 : Nat) ≤ 1) ∧
      1 ≤ (drawNodeWeights sampleLoopGraph (idx sampleLoopGraph 0) sampleLoop).sum :=
  ⟨C9_countSrcs_pos_no_nan.1 1 [] emptyNode 1 (by decide),
   C9_countSrcs_pos_no_nan.2 sampleLoopGraph (idx sampleLoopGraph 0) sampleLoop
     ⟨2, by decide, by decide, by decide⟩⟩

/-! ### drawNode angular partition (C4) -/

/-- The spans `[a, e₀), [e₀, e₁), …` are consecutive starting at `a`. -/
def Chained : ℚ → List (Nat × ℚ × ℚ) → Prop
  | _, [] => True
  | a, p :: r => p.2.1 = a ∧ Chained p.2.2 r

lemma zipMap_cons (w : Nat → Nat) (a : Nat) (l : List Nat) :
    List.zipWith Prod.mk (a :: l) ((a :: l).map w) =
      (a, w a) :: List.zipWith Prod.mk l (l.map w) := by
  simp

lemma drawNodeSpansGo_fst (excluding : Nodes) (T : Nat) (diff : ℚ)
    (w : Nat → Nat) :
    ∀ (l : List Nat) (start : ℚ),
      (drawNodeSpansGo excluding T diff (List.zipWith Prod.mk l (l.map w))
          start).map (fun p => p.1) =
        l.filter (fun s => !isInSet excluding s) := by
  intro l
  induction l with
  | nil => intro start; rfl
  | cons a l ih =>
    intro start
    rw [zipMap_cons]
    by_cases ha : isInSet excluding a
    · rw [List.filter_cons_of_neg (by simp [ha])]
      simp only [drawNodeSpansGo, ha, if_true]
      exact ih start
    · rw [List.filter_cons_of_pos (by simp [ha])]
      simp only [drawNodeSpansGo, ha, Bool.false_eq_true, if_false, List.map_cons]
      rw [ih]

lemma drawNodeSpansGo_chained (excluding : Nodes) (T : Nat) (diff : ℚ)
    (w : Nat → Nat) :
    ∀ (l : List Nat) (start : ℚ),
      Chained start
        (drawNodeSpansGo excluding T diff (List.zipWith Prod.mk l (l.map w))
          start) := by
  intro l
  induction l with
  | nil => intro start; trivial
  | cons a l ih =>
    intro start
    rw [zipMap_cons]
    by_cases ha : isInSet excluding a
    · simp only [drawNodeSpansGo, ha, if_true]
      exact ih start
    · simp only [drawNodeSpansGo, ha, Bool.false_eq_true, if_false]
      exact ⟨rfl, ih _⟩

lemma drawNodeSpansGo_width (excluding : Nodes) (T : Nat) (diff : ℚ)
    (w : Nat → Nat) :
    ∀ (l : List Nat) (start : ℚ),
      ∀ p ∈ drawNodeSpansGo excluding T diff (List.zipWith Prod.mk l (l.map w))
          start,
        p.2.2 - p.2.1 = (w p.1 : ℚ) / (T : ℚ) * diff := by
  intro l
  induction l with
  | nil => intro start p hp; simp [drawNodeSpansGo] at hp
  | cons a l ih =>
    intro start p hp
    rw [zipMap_cons] at hp
    by_cases ha : isInSet excluding a
    · simp only [drawNodeSpansGo, ha, if_true] at hp
      exact ih _ p hp
    · simp only [drawNodeSpansGo, ha, Bool.false_eq_true, if_false,
        List.mem_cons] at hp
      rcases hp with rfl | hp
      · ring
      · exact ih _ p hp

lemma drawNodeSpansGo_sum (excluding : Nodes) (T : Nat) (diff : ℚ)
    (w : Nat → Nat) :
    ∀ (l : List Nat) (start : ℚ),
      ((drawNodeSpansGo excluding T diff (List.zipWith Prod.mk l (l.map w))
          start).map (fun p => p.2.2 - p.2.1)).sum =
        (((l.filter (fun s => !isInSet excluding s)).map w).sum : ℚ) *
          ((T : ℚ)⁻¹ * diff) := by
  intro l
  induction l with
  | nil => intro start; simp [drawNodeSpansGo]
  | cons a l ih =>
    intro start
    rw [zipMap_cons]
    by_cases ha : isInSet excluding a
    · rw [List.filter_cons_of_neg (by simp [ha])]
      simp only [drawNodeSpansGo, ha, if_true]
      exact ih start
    · rw [List.filter_cons_of_pos (by simp [ha])]
      simp only [drawNodeSpansGo, ha, Bool.false_eq_true, if_false,
        List.map_cons, List.sum_cons]
      rw [ih]
      push_cast
      field_simp
      ring

lemma weights_sum_eq_filter_sum (excluding : Nodes) (w : Nat → Nat)
    (hw : ∀ s, isInSet excluding s = true → w s = 0) :
    ∀ l : List Nat,
      ((l.filter (fun s => !isInSet excluding s)).map w).sum = (l.map w).sum := by
  intro l
  induction l with
  | nil => rfl
  | cons a l ih =>
    by_cases ha : isInSet excluding a
    · have hf : List.filter (fun s => !isInSet excluding s) (a :: l) =
          List.filter (fun s => !isInSet excluding s) l := by
        simp [List.filter_cons, ha]
      rw [hf, ih, List.map_cons, List.sum_cons, hw a ha, Nat.zero_add]
    · have hf : List.filter (fun s => !isInSet excluding s) (a :: l) =
          a :: List.filter (fun s => !isInSet excluding s) l := by
        simp [List.filter_cons, ha]
      rw [hf, List.map_cons, List.sum_cons, List.map_cons, List.sum_cons, ih]

/-- The partition property of one `drawNode` invocation: the wedge for the
node itself covers `[start, stop)` at ring `level`; the children recursed
into are exactly the non-excluded sources in `Srcs` order; their spans are
consecutive starting at `start`; each has width
`(countSrcs(child)/srcTotal) * (stop - start)`; and the widths sum to
exactly `stop - start`. -/
def DrawNodePartition (n : Nodes) (nn : Node) (excluding : Nodes)
    (level : Nat) (start stop : ℚ) : Prop :=
  (drawNode n nn excluding level start stop).1 = ⟨level, nn.Num, start, stop⟩ ∧
  ((drawNode n nn excluding level start stop).2.map (fun p => p.1) =
    nn.Srcs.filter (fun s => !isInSet excluding s)) ∧
  Chained start (drawNode n nn excluding level start stop).2 ∧
  (∀ p ∈ (drawNode n nn excluding level start stop).2,
    p.2.2 - p.2.1 = (countSrcsVal n p.1 : ℚ) /
      ((drawNodeWeights n nn excluding).sum : ℚ) * (stop - start)) ∧
  (((drawNode n nn excluding level start stop).2.map
      (fun p => p.2.2 - p.2.1)).sum = stop - start)

/-- C4: every `drawNode` call with at least one qualifying (non-excluded)
child — whose `countSrcs` calls terminate — emits the node's wedge over
`[start, stop)` at its ring and tiles `[start, stop)` among the qualifying
children in `Srcs` order, contiguously, with widths
`(countSrcs(child)/srcTotal) * (stop - start)` summing exactly to
`stop - start` in exact arithmetic. -/
theorem C4_drawNode_partition (n : Nodes) (nn : Node) (excluding : Nodes)
    (level : Nat) (start stop : ℚ)
    (hterm : ∀ si ∈ nn.Srcs, isInSet excluding si = false →
      (countSrcs n.length n (idx n si)).isSome = true)
    (hq : ∃ si ∈ nn.Srcs, isInSet excluding si = false) :
    DrawNodePartition n nn excluding level start stop := by
  have hTpos : 1 ≤ (drawNodeWeights n nn excluding).sum := by
    obtain ⟨si, hmem, hex⟩ := hq
    exact drawNodeWeights_sum_pos n nn excluding ⟨si, hmem, hex, hterm si hmem hex⟩
  set w : Nat → Nat :=
    fun sni => if isInSet excluding sni then 0 else countSrcsVal n sni with hwdef
  have hweights : drawNodeWeights n nn excluding = nn.Srcs.map w := rfl
  have hspans : (drawNode n nn excluding level start stop).2 =
      drawNodeSpansGo excluding (nn.Srcs.map w).sum (stop - start)
        (List.zipWith Prod.mk nn.Srcs (nn.Srcs.map w)) start := rfl
  refine ⟨rfl, ?_, ?_, ?_, ?_⟩
  · rw [hspans, drawNodeSpansGo_fst]
  · rw [hspans]
    exact drawNodeSpansGo_chained _ _ _ _ _ _
  · intro p hp
    rw [hspans] at hp
    have hw := drawNodeSpansGo_width excluding (nn.Srcs.map w).sum
      (stop - start) w nn.Srcs start p hp
    have hpfst : p.1 ∈ nn.Srcs.filter (fun s => !isInSet excluding s) := by
      have := drawNodeSpansGo_fst excluding (nn.Srcs.map w).sum
        (stop - start) w nn.Srcs start
      rw [← this]
      exact List.mem_map_of_mem _ hp
    have hpex : isInSet excluding p.1 = false := by
      have := List.of_mem_filter hpfst
      simpa using this
    rw [hw, hweights]
    have : w p.1 = countSrcsVal n p.1 := by
      rw [hwdef]
      simp [hpex]
    rw [this]
  · rw [hspans, drawNodeSpansGo_sum]
    rw [weights_sum_eq_filter_sum excluding w
      (fun s hs => by simp [hwdef, hs]) nn.Srcs]
    rw [← hweights]
    have hT0 : ((drawNodeWeights n nn excluding).sum : ℚ) ≠ 0 := by
      have : (0 : ℚ) < ((drawNodeWeights n nn excluding).sum : ℚ) := by
        exact_mod_cast hTpos
      exact ne_of_gt this
    rw [← mul_assoc, mul_inv_cancel₀ hT0, one_mul]

theorem C4_drawNode_partition_witness :
    (∀ si ∈ (idx sampleLoopGraph 0).Srcs, isInSet sampleLoop si = false →
      (countSrcs sampleLoopGraph.length sampleLoopGraph
        (idx sampleLoopGraph si)).isSome = true) ∧
    (∃ si ∈ (idx sampleLoopGraph 0).Srcs, isInSet sampleLoop si = false) ∧
    DrawNodePartition sampleLoopGraph (idx sampleLoopGraph 0) sampleLoop 1 0 1 :=
  ⟨by decide, ⟨2, by decide, by decide⟩,
   C4_drawNode_partition sampleLoopGraph (idx sampleLoopGraph 0) sampleLoop 1 0 1
     (by decide) ⟨2, by decide, by decide⟩⟩

/-! ### The shape of the graph built by createNodes -/

lemma idx_set (l : Nodes) (i : Nat) (a : Node) (j : Nat) :
    idx (l.set i a) j = if i = j ∧ i < l.length then a else idx l j := by
  simp only [idx, List.getD_eq_getElem?_getD, List.getElem?_set]
  by_cases h : i = j
  · subst h
    by_cases hl : i < l.length
    · simp [hl]
    · simp [hl, List.getElem?_eq_none (le_of_not_lt hl)]
  · simp [h]

lemma idx_replicate (N : Nat) (j : Nat) :
    idx (List.replicate N emptyNode) j = emptyNode := by
  simp only [idx, List.getD_eq_getElem?_getD, List.getElem?_replicate]
  split <;> simp

lemma createStep_foldl_length (f : Nat → Nat) :
    ∀ (l : List Nat) (n : Nodes), (l.foldl (createStep f) n).length = n.length := by
  intro l
  induction l with
  | nil => intro n; rfl
  | cons a l ih =>
    intro n
    rw [List.foldl_cons, ih]
    simp [createStep]

/-- The contents of the graph array after the first `k` iterations of the
`createNodes` loop. -/
def nodeUpto (f : Nat → Nat) (k j : Nat) : Node :=
  ⟨if j < k then j else 0, if j < k then f j else 0,
   (List.range k).filter (fun m => f m = j)⟩

lemma filter_range_succ (f : Nat → Nat) (k j : Nat) :
    (List.range (k + 1)).filter (fun m => f m = j) =
      (List.range k).filter (fun m => f m = j) ++
        (if f k = j then [k] else []) := by
  rw [List.range_succ, List.filter_append]
  congr 1
  by_cases h : f k = j <;> simp [List.filter_cons, h]

lemma createStep_eq (f : Nat → Nat) (n : Nodes) (i : Nat) :
    createStep f n i =
      (n.set i { idx n i with Num := i, Dst := f i }).set (f i)
        { idx (n.set i { idx n i with Num := i, Dst := f i }) (f i) with
          Srcs :=
            (idx (n.set i { idx n i with Num := i, Dst := f i }) (f i)).Srcs
              ++ [i] } := rfl

lemma createNodesG_upto (N : Nat) (f : Nat → Nat) (hf : ∀ i, i < N → f i < N) :
    ∀ k, k ≤ N → ∀ j, j < N →
      idx ((List.range k).foldl (createStep f) (List.replicate N emptyNode)) j =
        nodeUpto f k j := by
  intro k
  induction k with
  | zero =>
    intro _ j hj
    rw [List.range_zero, List.foldl_nil, idx_replicate]
    simp [nodeUpto, emptyNode]
  | succ k ih =>
    intro hk j hj
    rw [List.range_succ, List.foldl_append, List.foldl_cons, List.foldl_nil]
    have ihk := ih (by omega)
    set L := (List.range k).foldl (createStep f) (List.replicate N emptyNode)
      with hL
    have hlen : L.length = N := by
      rw [hL, createStep_foldl_length]
      exact List.length_replicate _ _
    have hkN : k < N := by omega
    have hfkN : f k < N := hf k hkN
    have hAk : idx L k = ⟨0, 0, (List.range k).filter (fun m => f m = k)⟩ := by
      rw [ihk k hkN]
      simp [nodeUpto]
    rw [createStep_eq]
    set u1 : Node := { idx L k with Num := k, Dst := f k } with hu1
    have hu1' : u1 = ⟨k, f k, (List.range k).filter (fun m => f m = k)⟩ := by
      rw [hu1, hAk]
    set n1 : Nodes := L.set k u1 with hn1
    have hn1len : n1.length = N := by rw [hn1, List.length_set, hlen]
    have hidx1 : ∀ m, idx n1 m = if k = m then u1 else idx L m := by
      intro m
      rw [hn1, idx_set]
      by_cases hm : k = m
      · simp [hm, hlen, hm ▸ hkN]
      · simp [hm]
    rw [idx_set, hn1len]
    by_cases hj2 : f k = j
    · rw [if_pos ⟨hj2, hfkN⟩, hidx1 (f k)]
      by_cases hkk : k = f k
      · rw [if_pos hkk, hu1']
        have hjk : j = k := by omega
        subst hjk
        unfold nodeUpto
        rw [filter_range_succ, if_pos hj2]
        dsimp only
        simp only [Node.mk.injEq]
        refine ⟨by rw [if_pos (Nat.lt_succ_self j)],
          by rw [if_pos (Nat.lt_succ_self j)], trivial⟩
      · rw [if_neg hkk, ihk (f k) hfkN]
        subst hj2
        unfold nodeUpto
        rw [filter_range_succ, if_pos rfl]
        dsimp only
        simp only [Node.mk.injEq]
        refine ⟨by split_ifs <;> omega, by split_ifs <;> omega, trivial⟩
    · rw [if_neg (fun h => hj2 h.1), hidx1 j]
      by_cases hjk : k = j
      · rw [if_pos hjk, hu1']
        subst hjk
        unfold nodeUpto
        rw [filter_range_succ, if_neg hj2]
        simp only [Node.mk.injEq, List.append_nil]
        refine ⟨by rw [if_pos (Nat.lt_succ_self k)],
          by rw [if_pos (Nat.lt_succ_self k)], trivial⟩
      · rw [if_neg hjk, ihk j hj]
        unfold nodeUpto
        rw [filter_range_succ, if_neg hj2]
        simp only [Node.mk.injEq, List.append_nil]
        refine ⟨by split_ifs <;> omega, by split_ifs <;> omega, trivial⟩

/-- Well-formedness of the graph as built by `createNodes` over domain size
`N` and transform `f`: `n[i] = {Num: i, Dst: f i, Srcs: ascending preimages}`. -/
structure WFGraph (N : Nat) (f : Nat → Nat) (n : Nodes) : Prop where
  len : n.length = N
  dom : ∀ i, i < N → f i < N
  at_idx : ∀ i, i < N →
    idx n i = ⟨i, f i, (List.range N).filter (fun m => f m = i)⟩

theorem createNodesG_wf (N : Nat) (f : Nat → Nat)
    (hf : ∀ i, i < N → f i < N) : WFGraph N f (createNodesG N f) := by
  refine ⟨?_, hf, ?_⟩
  · exact createNodesG_length N f
  · intro i hi
    have := createNodesG_upto N f hf N le_rfl i hi
    rw [createNodesG, this, nodeUpto, if_pos hi, if_pos hi]

lemma WFGraph.num_eq {N f n} (wf : WFGraph N f n) {i : Nat} (hi : i < N) :
    (idx n i).Num = i := by rw [wf.at_idx i hi]

lemma WFGraph.dst_eq {N f n} (wf : WFGraph N f n) {i : Nat} (hi : i < N) :
    (idx n i).Dst = f i := by rw [wf.at_idx i hi]

lemma WFGraph.mem_srcs {N f n} (wf : WFGraph N f n) {i : Nat} (hi : i < N)
    {j : Nat} : j ∈ (idx n i).Srcs ↔ j < N ∧ f j = i := by
  rw [wf.at_idx i hi]
  simp [List.mem_filter, List.mem_range]

lemma WFGraph.srcs_nodup {N f n} (wf : WFGraph N f n) {i : Nat} (hi : i < N) :
    (idx n i).Srcs.Nodup := by
  rw [wf.at_idx i hi]
  exact (List.nodup_range N).filter _

/-! ### Periodic and transient nodes of the transform -/

/-- A domain value lying on a cycle under repeated application of the
transform (`Dst`): some positive iterate returns to it. -/
def IsPeriodicNode (f : Nat → Nat) (x : Nat) : Prop :=
  ∃ k, 0 < k ∧ f^[k] x = x

lemma periodicNode_iff_mem (f : Nat → Nat) (x : Nat) :
    IsPeriodicNode f x ↔ x ∈ Function.periodicPts f := by
  constructor
  · rintro ⟨k, hk, h⟩
    exact ⟨k, hk, h⟩
  · rintro ⟨k, hk, h⟩
    exact ⟨k, hk, h⟩

lemma iterate_lt {N : Nat} {f : Nat → Nat} (dom : ∀ i, i < N → f i < N)
    {i : Nat} (hi : i < N) : ∀ k, f^[k] i < N := by
  intro k
  induction k with
  | zero => simpa
  | succ k ih =>
    rw [Function.iterate_succ_apply']
    exact dom _ ih

lemma periodic_iterate {f : Nat → Nat} {x : Nat} (hp : IsPeriodicNode f x)
    (t : Nat) : IsPeriodicNode f (f^[t] x) := by
  obtain ⟨k, hk, h⟩ := hp
  refine ⟨k, hk, ?_⟩
  rw [← Function.iterate_add_apply, Nat.add_comm, Function.iterate_add_apply, h]

lemma transient_of_reaches {f : Nat → Nat} {y c : Nat} {m : Nat}
    (hm : f^[m] y = c) (hc : ¬ IsPeriodicNode f c) : ¬ IsPeriodicNode f y :=
  fun hy => hc (hm ▸ periodic_iterate hy m)

lemma periodic_reaches_back {f : Nat → Nat} {x : Nat}
    (hp : IsPeriodicNode f x) (t : Nat) : ∃ s, f^[s] (f^[t] x) = x := by
  obtain ⟨k, hk, h⟩ := hp
  have hmul : ∀ m, f^[k * m] x = x := by
    intro m
    induction m with
    | zero => simp
    | succ m ih =>
      rw [Nat.mul_succ, Function.iterate_add_apply, h, ih]
  refine ⟨k * (t + 1) - t, ?_⟩
  rw [← Function.iterate_add_apply]
  have hle : t ≤ k * (t + 1) := by nlinarith
  have : k * (t + 1) - t + t = k * (t + 1) := by omega
  rw [this, hmul]

lemma periodic_preimage_on_cycle {f : Nat → Nat} {c x : Nat}
    (hc : IsPeriodicNode f c) (hcx : f c = x) : ∃ t, f^[t] x = c := by
  obtain ⟨k, hk, h⟩ := hc
  refine ⟨k - 1, ?_⟩
  rw [← hcx, ← Function.iterate_succ_apply]
  have hsucc : (k - 1).succ = k := by omega
  rw [hsucc, h]

lemma reach_eq_of_reach {f : Nat → Nat} {x z : Nat} (hpx : IsPeriodicNode f x)
    {a : Nat} (ha : f^[a] x = z) :
    ∀ w, (∃ t, f^[t] z = w) ↔ ∃ t, f^[t] x = w := by
  intro w
  constructor
  · rintro ⟨t, rfl⟩
    exact ⟨t + a, by rw [Function.iterate_add_apply, ha]⟩
  · rintro ⟨t, rfl⟩
    obtain ⟨s, hs⟩ := periodic_reaches_back hpx a
    rw [ha] at hs
    exact ⟨t + s, by rw [Function.iterate_add_apply, hs]⟩

lemma minimalPeriod_pos {f : Nat → Nat} {x : Nat} (hp : IsPeriodicNode f x) :
    0 < Function.minimalPeriod f x :=
  Function.minimalPeriod_pos_iff_mem_periodicPts.2 ((periodicNode_iff_mem f x).1 hp)

lemma iterate_minPeriod {f : Nat → Nat} (x : Nat) :
    f^[Function.minimalPeriod f x] x = x :=
  Function.iterate_minimalPeriod

lemma iterate_inj_lt_minPeriod {f : Nat → Nat} {x : Nat} {a b : Nat}
    (ha : a < Function.minimalPeriod f x) (hb : b < Function.minimalPeriod f x)
    (h : f^[a] x = f^[b] x) : a = b :=
  Function.iterate_injOn_Iio_minimalPeriod (Set.mem_Iio.2 ha) (Set.mem_Iio.2 hb) h

lemma iterate_card_le {N : Nat} {f : Nat → Nat} (dom : ∀ i, i < N → f i < N)
    {i : Nat} (hi : i < N) {t : Nat}
    (hinj : ∀ a b, a ≤ t → b ≤ t → f^[a] i = f^[b] i → a = b) : t < N := by
  have hmaps : ∀ a ∈ Finset.range (t + 1), f^[a] i ∈ Finset.range N := by
    intro a _
    exact Finset.mem_range.2 (iterate_lt dom hi a)
  have hinj' : Set.InjOn (fun a => f^[a] i) (Finset.range (t + 1)) := by
    intro a ha b hb hab
    exact hinj a b (by have := Finset.mem_range.1 ha; omega)
      (by have := Finset.mem_range.1 hb; omega) hab
  have := Finset.card_le_card_of_injOn _ hmaps hinj'
  simpa using this

lemma minimalPeriod_le_N {N : Nat} {f : Nat → Nat}
    (dom : ∀ i, i < N → f i < N) {i : Nat} (hi : i < N) :
    Function.minimalPeriod f i ≤ N := by
  set L := Function.minimalPeriod f i with hLdef
  by_contra hcon
  have hinj : ∀ a b, a ≤ N → b ≤ N → f^[a] i = f^[b] i → a = b := by
    intro a b ha hb hab
    exact iterate_inj_lt_minPeriod (by omega) (by omega) hab
  have := iterate_card_le dom hi hinj
  omega

lemma exists_collision {N : Nat} {f : Nat → Nat}
    (dom : ∀ i, i < N → f i < N) {i : Nat} (hi : i < N) :
    ∃ a b, a < b ∧ b ≤ N ∧ f^[a] i = f^[b] i := by
  by_contra hcon
  push_neg at hcon
  have hinj : ∀ a b, a ≤ N → b ≤ N → f^[a] i = f^[b] i → a = b := by
    intro a b ha hb hab
    rcases Nat.lt_trichotomy a b with h | h | h
    · exact absurd hab (hcon a b h hb)
    · exact h
    · exact absurd hab.symm (hcon b a h ha)
  have := iterate_card_le dom hi hinj
  omega

lemma eventually_periodic {N : Nat} {f : Nat → Nat}
    (dom : ∀ i, i < N → f i < N) {i : Nat} (hi : i < N) :
    ∃ k, k ≤ N ∧ IsPeriodicNode f (f^[k] i) := by
  obtain ⟨a, b, hab, hbN, heq⟩ := exists_collision dom hi
  refine ⟨a, by omega, b - a, by omega, ?_⟩
  rw [← Function.iterate_add_apply]
  have : b - a + a = b := by omega
  rw [this, ← heq]

/-! ### What maybeLoop computes -/

/-- The path slice accumulated by `maybeLoop`'s walk after `t` iterations
from origin `i`: the nodes of the first `t` iterates. -/
def pathList (n : Nodes) (f : Nat → Nat) (i t : Nat) : Nodes :=
  (List.range t).map (fun s => idx n (f^[s] i))

lemma pathList_succ (n : Nodes) (f : Nat → Nat) (i t : Nat) :
    pathList n f i t ++ [idx n (f^[t] i)] = pathList n f i (t + 1) := by
  unfold pathList
  rw [List.range_succ, List.map_append, List.map_cons, List.map_nil]

lemma pathList_any_num {N f n} (wf : WFGraph N f n) {i : Nat} (hi : i < N)
    (t : Nat) (d : Nat) :
    (pathList n f i t).any (fun ln => ln.Num == d) = true ↔
      ∃ s, s < t ∧ f^[s] i = d := by
  unfold pathList
  rw [List.any_eq_true]
  constructor
  · rintro ⟨ln, hln, hbeq⟩
    obtain ⟨s, hs, rfl⟩ := List.mem_map.1 hln
    refine ⟨s, List.mem_range.1 hs, ?_⟩
    have := wf.num_eq (iterate_lt wf.dom hi s)
    rw [this] at hbeq
    simpa using hbeq
  · rintro ⟨s, hs, hd⟩
    refine ⟨idx n (f^[s] i), List.mem_map.2 ⟨s, List.mem_range.2 hs, rfl⟩, ?_⟩
    have := wf.num_eq (iterate_lt wf.dom hi s)
    rw [this, hd]
    simp

lemma maybeLoopGo_periodic {N f n} (wf : WFGraph N f n) {i : Nat} (hi : i < N)
    (hp : IsPeriodicNode f i) :
    ∀ (fuel t : Nat), t < Function.minimalPeriod f i →
      Function.minimalPeriod f i - t ≤ fuel →
      maybeLoopGo fuel n i (f^[t] i) (pathList n f i t) =
        some (pathList n f i (Function.minimalPeriod f i)) := by
  set L := Function.minimalPeriod f i with hLdef
  have hL0 : 0 < L := minimalPeriod_pos hp
  have hLit : f^[L] i = i := iterate_minPeriod i
  intro fuel
  induction fuel with
  | zero => intro t ht hfuel; omega
  | succ fuel ih =>
    intro t ht hfuel
    have hitN : f^[t] i < N := iterate_lt wf.dom hi t
    have hdst : (idx n (f^[t] i)).Dst = f^[t + 1] i := by
      rw [wf.dst_eq hitN, Function.iterate_succ_apply']
    simp only [maybeLoopGo]
    rw [hdst, pathList_succ]
    by_cases ht1 : t + 1 = L
    · rw [if_pos (by rw [ht1, hLit])]
      rw [ht1]
    · have ht1' : t + 1 < L := by omega
      rw [if_neg ?hne]
      case hne =>
        intro hcon
        have : t + 1 = 0 := iterate_inj_lt_minPeriod (hLdef ▸ ht1')
          (hLdef ▸ hL0) (by simpa using hcon)
        omega
      rw [if_neg ?hnd]
      case hnd =>
        intro hcon
        obtain ⟨s, hs, hsd⟩ := (pathList_any_num wf hi (t + 1) (f^[t + 1] i)).1 hcon
        have : s = t + 1 := iterate_inj_lt_minPeriod
          (hLdef ▸ (by omega : s < L)) (hLdef ▸ ht1') hsd
        omega
      exact ih (t + 1) ht1' (by omega)

lemma maybeLoopGo_transient {N f n} (wf : WFGraph N f n) {i : Nat} (hi : i < N)
    (hp : ¬ IsPeriodicNode f i) :
    ∀ (fuel t : Nat),
      (∀ a b, a ≤ t → b ≤ t → f^[a] i = f^[b] i → a = b) →
      N + 1 ≤ fuel + t →
      maybeLoopGo fuel n i (f^[t] i) (pathList n f i t) = some [] := by
  intro fuel
  induction fuel with
  | zero =>
    intro t hinj hfuel
    have := iterate_card_le wf.dom hi hinj
    omega
  | succ fuel ih =>
    intro t hinj hfuel
    have hitN : f^[t] i < N := iterate_lt wf.dom hi t
    have hdst : (idx n (f^[t] i)).Dst = f^[t + 1] i := by
      rw [wf.dst_eq hitN, Function.iterate_succ_apply']
    simp only [maybeLoopGo]
    rw [hdst, pathList_succ]
    rw [if_neg ?hne]
    case hne =>
      intro hcon
      exact hp ⟨t + 1, by omega, hcon⟩
    by_cases hdup : ∃ s, s < t + 1 ∧ f^[s] i = f^[t + 1] i
    · rw [if_pos ((pathList_any_num wf hi (t + 1) (f^[t + 1] i)).2 hdup)]
    · rw [if_neg (fun hcon =>
        hdup ((pathList_any_num wf hi (t + 1) (f^[t + 1] i)).1 hcon))]
      refine ih (t + 1) ?_ (by omega)
      intro a b ha hb hab
      rcases Nat.lt_or_ge a (t + 1) with ha' | ha'
      · rcases Nat.lt_or_ge b (t + 1) with hb' | hb'
        · exact hinj a b (by omega) (by omega) hab
        · have hb'' : b = t + 1 := by omega
          subst hb''
          exact absurd ⟨a, ha', hab⟩ hdup
      · have ha'' : a = t + 1 := by omega
        subst ha''
        rcases Nat.lt_or_ge b (t + 1) with hb' | hb'
        · exact absurd ⟨b, hb', hab.symm⟩ hdup
        · omega

/-- `maybeLoop` from a periodic origin returns the origin's cycle, listed as
the iterates of the origin up to (one before) its minimal period. -/
lemma maybeLoop_periodic {N f n} (wf : WFGraph N f n) {i : Nat} (hi : i < N)
    (hp : IsPeriodicNode f i) :
    maybeLoop n i [] =
      (List.range (Function.minimalPeriod f i)).map (fun s => idx n (f^[s] i)) := by
  have hL0 : 0 < Function.minimalPeriod f i := minimalPeriod_pos hp
  have hLN : Function.minimalPeriod f i ≤ N := minimalPeriod_le_N wf.dom hi
  have h := maybeLoopGo_periodic wf hi hp (n.length + 1) 0 hL0
    (by have hl := wf.len; omega)
  unfold maybeLoop
  rw [show pathList n f i 0 = [] from rfl] at h
  rw [show f^[0] i = i from rfl] at h
  rw [h]
  rfl

/-- `maybeLoop` from a transient origin returns nil. -/
lemma maybeLoop_transient {N f n} (wf : WFGraph N f n) {i : Nat} (hi : i < N)
    (hp : ¬ IsPeriodicNode f i) : maybeLoop n i [] = [] := by
  have h := maybeLoopGo_transient wf hi hp (n.length + 1) 0
    (by intro a b ha hb _; omega) (by have hl := wf.len; omega)
  unfold maybeLoop
  rw [show pathList n f i 0 = [] from rfl] at h
  rw [show f^[0] i = i from rfl] at h
  rw [h]
  rfl

/-! ### What findLoops computes -/

lemma findLoopsN_eq_filterMap (N : Nat) (n : Nodes) :
    findLoopsN N n = (List.range N).filterMap (fun i =>
      if 0 < (maybeLoop n i []).length then some (maybeLoop n i []) else none) := by
  suffices h : ∀ (l : List Nat) (acc : List Nodes),
      l.foldl (findLoopsStep n) (acc, ([] : Nodes)) =
        (acc ++ l.filterMap (fun i =>
          if 0 < (maybeLoop n i []).length then some (maybeLoop n i []) else none),
         ([] : Nodes)) by
    unfold findLoopsN
    rw [h (List.range N) []]
    simp
  intro l
  induction l with
  | nil => intro acc; simp
  | cons a l ih =>
    intro acc
    rw [List.foldl_cons]
    have hskip : ((List.range acc.length).any
        (fun k => isInSet ([] : Nodes) k)) = false := by
      simp [isInSet]
    by_cases h : 0 < (maybeLoop n a []).length
    · have hstep : findLoopsStep n (acc, ([] : Nodes)) a =
          (acc ++ [maybeLoop n a []], ([] : Nodes)) := by
        simp [findLoopsStep, hskip, h]
      rw [hstep, ih, List.filterMap_cons]
      simp [h]
    · have hstep : findLoopsStep n (acc, ([] : Nodes)) a = (acc, ([] : Nodes)) := by
        simp [findLoopsStep, hskip, h]
      rw [hstep, ih, List.filterMap_cons]
      simp [h]

lemma cycle_map_num {N f n} (wf : WFGraph N f n) {i : Nat} (hi : i < N)
    (L : Nat) :
    ((List.range L).map (fun s => idx n (f^[s] i))).map Node.Num =
      (List.range L).map (fun s => f^[s] i) := by
  rw [List.map_map]
  refine List.map_congr_left ?_
  intro s _
  exact wf.num_eq (iterate_lt wf.dom hi s)

lemma mem_cycle_iterates {f : Nat → Nat} {i : Nat} (hp : IsPeriodicNode f i)
    {z : Nat} :
    z ∈ (List.range (Function.minimalPeriod f i)).map (fun s => f^[s] i) ↔
      ∃ t, f^[t] i = z := by
  constructor
  · rintro hz
    obtain ⟨s, _, rfl⟩ := List.mem_map.1 hz
    exact ⟨s, rfl⟩
  · rintro ⟨t, rfl⟩
    refine List.mem_map.2 ⟨t % Function.minimalPeriod f i, ?_, ?_⟩
    · exact List.mem_range.2
        (Nat.mod_lt _ (minimalPeriod_pos hp))
    · exact Function.iterate_mod_minimalPeriod_eq

lemma cycle_iterates_nodup {f : Nat → Nat} (i : Nat) :
    ((List.range (Function.minimalPeriod f i)).map (fun s => f^[s] i)).Nodup := by
  refine List.Nodup.map_on ?_ (List.nodup_range _)
  intro a ha b hb hab
  exact iterate_inj_lt_minPeriod (List.mem_range.1 ha) (List.mem_range.1 hb) hab

/-- Membership in main.go's `findLoops` output: exactly the walks from
periodic origins, each recorded as the origin's cycle. -/
lemma mem_findLoopsN {N f n} (wf : WFGraph N f n) (ℓ : Nodes) :
    ℓ ∈ findLoopsN N n ↔
      ∃ i, i < N ∧ IsPeriodicNode f i ∧
        ℓ = (List.range (Function.minimalPeriod f i)).map
          (fun s => idx n (f^[s] i)) := by
  rw [findLoopsN_eq_filterMap, List.mem_filterMap]
  constructor
  · rintro ⟨i, hmem, hsome⟩
    have hiN : i < N := List.mem_range.1 hmem
    by_cases hp : IsPeriodicNode f i
    · rw [maybeLoop_periodic wf hiN hp] at hsome
      rw [if_pos (by simp [minimalPeriod_pos hp])] at hsome
      exact ⟨i, hiN, hp, (Option.some_injective _ hsome).symm⟩
    · rw [maybeLoop_transient wf hiN hp] at hsome
      simp at hsome
  · rintro ⟨i, hiN, hp, rfl⟩
    refine ⟨i, List.mem_range.2 hiN, ?_⟩
    rw [maybeLoop_periodic wf hiN hp,
      if_pos (by simp [minimalPeriod_pos hp])]

/-- Every periodic id below `N` occurs among the members of `findLoops`'s
output, and every member id is a periodic id below `N`. -/
lemma mem_flat_findLoopsN {N f n} (wf : WFGraph N f n) (x : Nat) :
    x ∈ (findLoopsN N n).flatMap (fun ℓ => ℓ.map Node.Num) ↔
      x < N ∧ IsPeriodicNode f x := by
  rw [List.mem_flatMap]
  constructor
  · rintro ⟨ℓ, hℓ, hx⟩
    obtain ⟨i, hiN, hp, rfl⟩ := (mem_findLoopsN wf ℓ).1 hℓ
    rw [cycle_map_num wf hiN] at hx
    obtain ⟨t, rfl⟩ := (mem_cycle_iterates hp).1 hx
    exact ⟨iterate_lt wf.dom hiN t, periodic_iterate hp t⟩
  · rintro ⟨hxN, hp⟩
    refine ⟨(List.range (Function.minimalPeriod f x)).map
      (fun s => idx n (f^[s] x)), ?_, ?_⟩
    · exact (mem_findLoopsN wf _).2 ⟨x, hxN, hp, rfl⟩
    · rw [cycle_map_num wf hxN]
      exact (mem_cycle_iterates hp).2 ⟨0, rfl⟩

/-! ### What dedupLoops computes -/

lemma contains_iff (l : List Nat) (a : Nat) : l.contains a = true ↔ a ∈ l := by
  simp

lemma dedupGo_hit (found : List Nat) (nd : Node) (rest : Nodes)
    (h : nd.Num ∈ found) : dedupGo found (nd :: rest) = (found, false) := by
  unfold dedupGo
  rw [if_pos ((contains_iff found nd.Num).2 h)]

lemma dedupGo_fresh :
    ∀ (ℓ : Nodes) (found : List Nat),
      (∀ x ∈ ℓ.map Node.Num, x ∉ found) → (ℓ.map Node.Num).Nodup →
      (dedupGo found ℓ).2 = true ∧
        ∀ x, x ∈ (dedupGo found ℓ).1 ↔ x ∈ found ∨ x ∈ ℓ.map Node.Num := by
  intro ℓ
  induction ℓ with
  | nil =>
    intro found _ _
    exact ⟨rfl, fun x => by simp [dedupGo]⟩
  | cons nd rest ih =>
    intro found hfresh hnodup
    have hnd : nd.Num ∉ found := hfresh nd.Num (by simp)
    have hcont : found.contains nd.Num = false := by
      rw [← Bool.not_eq_true]
      intro hcon
      exact hnd ((contains_iff found nd.Num).1 hcon)
    unfold dedupGo
    rw [hcont]
    simp only [Bool.false_eq_true, if_false]
    have hfresh' : ∀ x ∈ rest.map Node.Num, x ∉ nd.Num :: found := by
      intro x hx
      simp only [List.mem_cons]
      rintro (rfl | hxf)
      · rw [List.map_cons] at hnodup
        exact (List.nodup_cons.1 hnodup).1 hx
      · exact hfresh x (by simp [hx]) hxf
    have hnodup' : (rest.map Node.Num).Nodup := by
      rw [List.map_cons] at hnodup
      exact (List.nodup_cons.1 hnodup).2
    obtain ⟨hkeep, hmem⟩ := ih (nd.Num :: found) hfresh' hnodup'
    refine ⟨hkeep, ?_⟩
    intro x
    rw [hmem x]
    simp only [List.mem_cons, List.map_cons]
    constructor
    · rintro ((rfl | hxf) | hxr)
      · exact Or.inr (by simp)
      · exact Or.inl hxf
      · exact Or.inr (by simp [hxr])
    · rintro (hxf | hx)
      · exact Or.inl (Or.inr hxf)
      · rcases hx with rfl | hxr
        · exact Or.inl (Or.inl rfl)
        · exact Or.inr hxr

lemma dedup_fold_spec (loops : List Nodes)
    (hne : ∀ ℓ ∈ loops, ℓ ≠ [])
    (hnodup : ∀ ℓ ∈ loops, (ℓ.map Node.Num).Nodup)
    (heqd : ∀ ℓ₁ ∈ loops, ∀ ℓ₂ ∈ loops,
      (∀ x, x ∈ ℓ₁.map Node.Num ↔ x ∈ ℓ₂.map Node.Num) ∨
      (∀ x, x ∈ ℓ₁.map Node.Num → x ∉ ℓ₂.map Node.Num)) :
    ∀ (rem : List Nodes) (found : List Nat) (ret : List Nodes),
      (∀ ℓ ∈ rem, ℓ ∈ loops) → (∀ ℓ ∈ ret, ℓ ∈ loops) →
      (∀ x, x ∈ found ↔ x ∈ ret.flatMap (fun ℓ => ℓ.map Node.Num)) →
      (ret.flatMap (fun ℓ => ℓ.map Node.Num)).Nodup →
      (∀ ℓ ∈ (rem.foldl dedupStep (found, ret)).2, ℓ ∈ loops) ∧
      ((rem.foldl dedupStep (found, ret)).2.flatMap
        (fun ℓ => ℓ.map Node.Num)).Nodup ∧
      (∀ x, x ∈ (rem.foldl dedupStep (found, ret)).2.flatMap
          (fun ℓ => ℓ.map Node.Num) ↔
        x ∈ ret.flatMap (fun ℓ => ℓ.map Node.Num) ∨
          x ∈ rem.flatMap (fun ℓ => ℓ.map Node.Num)) := by
  intro rem
  induction rem with
  | nil =>
    intro found ret _ hretin hfound hnd
    refine ⟨hretin, hnd, ?_⟩
    intro x
    simp
  | cons ℓ rem ih =>
    intro found ret hremin hretin hfound hnd
    have hℓin : ℓ ∈ loops := hremin ℓ (by simp)
    rw [List.foldl_cons]
    by_cases hint : ∃ x, x ∈ ℓ.map Node.Num ∧ x ∈ found
    · -- ℓ intersects the found set: its id set equals that of a kept loop,
      -- so its very first member is already marked and nothing changes.
      obtain ⟨x, hxℓ, hxf⟩ := hint
      obtain ⟨ℓ', hℓ', hxℓ'⟩ := List.mem_flatMap.1 ((hfound x).1 hxf)
      have heq : ∀ y, y ∈ ℓ.map Node.Num ↔ y ∈ ℓ'.map Node.Num := by
        rcases heqd ℓ hℓin ℓ' (hretin ℓ' hℓ') with h | h
        · exact h
        · exact absurd hxℓ' (h x hxℓ)
      have hsub : ∀ y, y ∈ ℓ.map Node.Num → y ∈ found := by
        intro y hy
        exact (hfound y).2 (List.mem_flatMap.2 ⟨ℓ', hℓ', (heq y).1 hy⟩)
      have hstep : dedupStep (found, ret) ℓ = (found, ret) := by
        obtain ⟨nd, rest, rfl⟩ : ∃ nd rest, ℓ = nd :: rest := by
          cases ℓ with
          | nil => exact absurd rfl (hne _ hℓin)
          | cons nd rest => exact ⟨nd, rest, rfl⟩
        simp only [dedupStep]
        rw [dedupGo_hit found nd rest (hsub nd.Num (by simp))]
        simp
      rw [hstep]
      obtain ⟨h1, h2, h3⟩ := ih found ret
        (fun m hm => hremin m (by simp [hm])) hretin hfound hnd
      refine ⟨h1, h2, ?_⟩
      intro y
      rw [h3 y, List.flatMap_cons, List.mem_append]
      constructor
      · rintro (hy | hy)
        · exact Or.inl hy
        · exact Or.inr (Or.inr hy)
      · rintro (hy | hy | hy)
        · exact Or.inl hy
        · exact Or.inl ((hfound y).1 (hsub y hy))
        · exact Or.inr hy
    · -- ℓ is disjoint from everything kept so far: it is kept and marked.
      have hfreshl : ∀ x ∈ ℓ.map Node.Num, x ∉ found := by
        intro x hx hxf
        exact hint ⟨x, hx, hxf⟩
      obtain ⟨hkeep, hmem⟩ := dedupGo_fresh ℓ found hfreshl (hnodup ℓ hℓin)
      have hstep : dedupStep (found, ret) ℓ = ((dedupGo found ℓ).1, ret ++ [ℓ]) := by
        simp only [dedupStep]
        rw [hkeep]
        simp
      rw [hstep]
      have hF : ∀ y, y ∈ (ret ++ [ℓ]).flatMap (fun m => m.map Node.Num) ↔
          y ∈ ret.flatMap (fun m => m.map Node.Num) ∨ y ∈ ℓ.map Node.Num := by
        intro y
        rw [List.flatMap_append, List.mem_append]
        simp
      have hretin' : ∀ m ∈ ret ++ [ℓ], m ∈ loops := by
        intro m hm
        rcases List.mem_append.1 hm with hm | hm
        · exact hretin m hm
        · rw [List.mem_singleton.1 hm]
          exact hℓin
      have hfound' : ∀ x, x ∈ (dedupGo found ℓ).1 ↔
          x ∈ (ret ++ [ℓ]).flatMap (fun m => m.map Node.Num) := by
        intro x
        rw [hmem x, hF x, hfound x]
      have hdisj : (ret.flatMap (fun m => m.map Node.Num)).Disjoint
          (ℓ.map Node.Num) := by
        rw [List.disjoint_left]
        intro a ha hal
        exact hfreshl a hal ((hfound a).2 ha)
      have hnd' : ((ret ++ [ℓ]).flatMap (fun m => m.map Node.Num)).Nodup := by
        rw [List.flatMap_append]
        refine List.Nodup.append hnd ?_ ?_
        · simpa using hnodup ℓ hℓin
        · simpa using hdisj
      obtain ⟨h1, h2, h3⟩ := ih (dedupGo found ℓ).1 (ret ++ [ℓ])
        (fun m hm => hremin m (by simp [hm])) hretin' hfound' hnd'
      refine ⟨h1, h2, ?_⟩
      intro y
      rw [h3 y, hF y, List.flatMap_cons, List.mem_append]
      tauto

lemma dedupLoops_spec (loops : List Nodes)
    (hne : ∀ ℓ ∈ loops, ℓ ≠ [])
    (hnodup : ∀ ℓ ∈ loops, (ℓ.map Node.Num).Nodup)
    (heqd : ∀ ℓ₁ ∈ loops, ∀ ℓ₂ ∈ loops,
      (∀ x, x ∈ ℓ₁.map Node.Num ↔ x ∈ ℓ₂.map Node.Num) ∨
      (∀ x, x ∈ ℓ₁.map Node.Num → x ∉ ℓ₂.map Node.Num)) :
    (∀ ℓ ∈ dedupLoops loops, ℓ ∈ loops) ∧
    ((dedupLoops loops).flatMap (fun ℓ => ℓ.map Node.Num)).Nodup ∧
    (∀ x, x ∈ (dedupLoops loops).flatMap (fun ℓ => ℓ.map Node.Num) ↔
      x ∈ loops.flatMap (fun ℓ => ℓ.map Node.Num)) := by
  obtain ⟨h1, h2, h3⟩ := dedup_fold_spec loops hne hnodup heqd loops [] []
    (fun _ h => h) (by simp) (by simp) (by simp)
  refine ⟨h1, h2, ?_⟩
  intro x
  rw [show dedupLoops loops = (loops.foldl dedupStep ([], [])).2 from rfl, h3 x]
  simp

lemma flat_nodup_pairwise :
    ∀ (R : List Nodes),
      (R.flatMap (fun ℓ => ℓ.map Node.Num)).Nodup →
      List.Pairwise (fun a b => ∀ x, x ∈ a.map Node.Num → x ∉ b.map Node.Num) R := by
  intro R
  induction R with
  | nil => intro _; exact List.Pairwise.nil
  | cons a rest ih =>
    intro hnd
    rw [List.flatMap_cons] at hnd
    obtain ⟨hna, hnr, hdisj⟩ := List.nodup_append.1 hnd
    refine List.Pairwise.cons ?_ (ih hnr)
    intro b hb x hxa hxb
    exact hdisj hxa (List.mem_flatMap.2 ⟨b, hb, hxb⟩)

lemma findLoops_hyps {N f n} (wf : WFGraph N f n) :
    (∀ ℓ ∈ findLoopsN N n, ℓ ≠ []) ∧
    (∀ ℓ ∈ findLoopsN N n, (ℓ.map Node.Num).Nodup) ∧
    (∀ ℓ₁ ∈ findLoopsN N n, ∀ ℓ₂ ∈ findLoopsN N n,
      (∀ x, x ∈ ℓ₁.map Node.Num ↔ x ∈ ℓ₂.map Node.Num) ∨
      (∀ x, x ∈ ℓ₁.map Node.Num → x ∉ ℓ₂.map Node.Num)) := by
  refine ⟨?_, ?_, ?_⟩
  · intro ℓ hℓ
    obtain ⟨i, hiN, hp, rfl⟩ := (mem_findLoopsN wf ℓ).1 hℓ
    have := minimalPeriod_pos hp
    simp only [ne_eq, List.map_eq_nil_iff, List.range_eq_nil]
    omega
  · intro ℓ hℓ
    obtain ⟨i, hiN, hp, rfl⟩ := (mem_findLoopsN wf ℓ).1 hℓ
    rw [cycle_map_num wf hiN]
    exact cycle_iterates_nodup i
  · intro ℓ₁ hℓ₁ ℓ₂ hℓ₂
    obtain ⟨i₁, hi₁, hp₁, rfl⟩ := (mem_findLoopsN wf ℓ₁).1 hℓ₁
    obtain ⟨i₂, hi₂, hp₂, rfl⟩ := (mem_findLoopsN wf ℓ₂).1 hℓ₂
    rw [cycle_map_num wf hi₁, cycle_map_num wf hi₂]
    by_cases hshare : ∃ z,
        z ∈ (List.range (Function.minimalPeriod f i₁)).map (fun s => f^[s] i₁) ∧
        z ∈ (List.range (Function.minimalPeriod f i₂)).map (fun s => f^[s] i₂)
    · left
      obtain ⟨z, hz₁, hz₂⟩ := hshare
      obtain ⟨a, _, ha⟩ := List.mem_map.1 hz₁
      obtain ⟨b, _, hb⟩ := List.mem_map.1 hz₂
      intro x
      rw [mem_cycle_iterates hp₁, mem_cycle_iterates hp₂,
        ← reach_eq_of_reach hp₁ ha x, ← reach_eq_of_reach hp₂ hb x]
    · right
      intro x hx₁ hx₂
      exact hshare ⟨x, hx₁, hx₂⟩

/-- C1: over the full-domain graph built by `createNodes`, running `findLoops`
then `dedupLoops` yields a list of cycles (each the iterate orbit of a
periodic origin) that are pairwise node-disjoint, contain no id twice
anywhere, and whose member ids are exactly the periodic subset of the domain
(ids on a cycle under repeated `Dst`, i.e. repeated `happifyColor`): every
periodic id appears and no transient id does. -/
theorem C1_cycle_list_partitions_periodic :
    ((dedupLoops (findLoops createNodes)).flatMap
      (fun ℓ => ℓ.map Node.Num)).Nodup ∧
    List.Pairwise (fun a b => ∀ x, x ∈ a.map Node.Num → x ∉ b.map Node.Num)
      (dedupLoops (findLoops createNodes)) ∧
    (∀ ℓ ∈ dedupLoops (findLoops createNodes), ∃ i, i < numNodes ∧
      IsPeriodicNode happifyColor i ∧
      ℓ = (List.range (Function.minimalPeriod happifyColor i)).map
        (fun s => idx createNodes (happifyColor^[s] i))) ∧
    (∀ x, x ∈ (dedupLoops (findLoops createNodes)).flatMap
        (fun ℓ => ℓ.map Node.Num) ↔
      x < numNodes ∧ IsPeriodicNode happifyColor x) := by
  have wf : WFGraph numNodes happifyColor createNodes :=
    createNodesG_wf numNodes happifyColor (fun i _ => by
      have := happifyColor_lt i
      have hN : numNodes = 2 ^ 24 := by norm_num [numNodes]
      omega)
  obtain ⟨hne, hnodup, heqd⟩ := findLoops_hyps wf
  obtain ⟨h1, h2, h3⟩ := dedupLoops_spec (findLoopsN numNodes createNodes)
    hne hnodup heqd
  refine ⟨h2, flat_nodup_pairwise _ h2, ?_, ?_⟩
  · intro ℓ hℓ
    exact (mem_findLoopsN wf ℓ).1 (h1 ℓ hℓ)
  · intro x
    rw [show findLoops createNodes = findLoopsN numNodes createNodes from rfl,
      h3 x]
    exact mem_flat_findLoopsN wf x

/-! ### Inbound trees of transient nodes: countSrcs values and termination -/

lemma optSum_eq_map_sum {g : Nat → Option Nat} {v : Nat → Nat} :
    ∀ l : List Nat, (∀ si ∈ l, g si = some (v si)) →
      optSum g l = some ((l.map v).sum) := by
  intro l
  induction l with
  | nil => intro _; rfl
  | cons a l ih =>
    intro h
    rw [show optSum g (a :: l) = match g a, optSum g l with
      | some c, some s => some (c + s) | _, _ => none from rfl]
    rw [h a (by simp), ih (fun si hsi => h si (by simp [hsi]))]
    simp

lemma optSum_none_of_mem {g : Nat → Option Nat} :
    ∀ l : List Nat, (∃ si ∈ l, g si = none) → optSum g l = none := by
  intro l
  induction l with
  | nil => rintro ⟨si, h, _⟩; simp at h
  | cons a l ih =>
    rintro ⟨si, hmem, hnone⟩
    rw [show optSum g (a :: l) = match g a, optSum g l with
      | some c, some s => some (c + s) | _, _ => none from rfl]
    rcases List.mem_cons.1 hmem with rfl | hmem
    · rw [hnone]
    · rw [ih ⟨si, hmem, hnone⟩]
      cases g a <;> rfl

lemma reaches_bound {N : Nat} {f : Nat → Nat} (dom : ∀ i, i < N → f i < N)
    {y : Nat} (hy : y < N) {x : Nat} (h : ∃ k, f^[k] y = x) :
    ∃ k, k < N ∧ f^[k] y = x := by
  have hdec : DecidablePred (fun k => f^[k] y = x) := fun k => Nat.decEq _ _
  refine ⟨Nat.find h, ?_, Nat.find_spec h⟩
  by_contra hk
  push_neg at hk
  obtain ⟨a, b, hab, hbN, heq⟩ := exists_collision dom hy
  have hbk : b ≤ Nat.find h := by omega
  have hshort : f^[Nat.find h - b + a] y = x := by
    have h1 : Nat.find h - b + b = Nat.find h := by omega
    have h2 : f^[Nat.find h] y = x := Nat.find_spec h
    rw [← h1, Function.iterate_add_apply, ← heq,
      ← Function.iterate_add_apply] at h2
    exact h2
  exact Nat.find_min h (by omega) hshort

/-- The inbound tree of `x`: all domain values whose forward orbit reaches
`x`.  For a transient `x` this is exactly the set `countSrcs` counts. -/
def ancestors (N : Nat) (f : Nat → Nat) (x : Nat) : Finset Nat :=
  (Finset.range N).filter
    (fun y => ((List.range N).any (fun k => f^[k] y == x)) = true)

lemma mem_ancestors {N : Nat} {f : Nat → Nat} (dom : ∀ i, i < N → f i < N)
    {x y : Nat} : y ∈ ancestors N f x ↔ y < N ∧ ∃ k, f^[k] y = x := by
  unfold ancestors
  rw [Finset.mem_filter, Finset.mem_range]
  constructor
  · rintro ⟨hyN, hany⟩
    obtain ⟨k, _, hk⟩ := List.any_eq_true.1 hany
    exact ⟨hyN, k, by simpa using hk⟩
  · rintro ⟨hyN, hk⟩
    obtain ⟨k, hkN, hkx⟩ := reaches_bound dom hyN hk
    exact ⟨hyN, List.any_eq_true.2 ⟨k, List.mem_range.2 hkN, by simp [hkx]⟩⟩

lemma self_mem_ancestors {N : Nat} {f : Nat → Nat} (dom : ∀ i, i < N → f i < N)
    {x : Nat} (hx : x < N) : x ∈ ancestors N f x :=
  (mem_ancestors dom).2 ⟨hx, 0, rfl⟩

lemma ancestors_card_le {N : Nat} (f : Nat → Nat) (x : Nat) :
    (ancestors N f x).card ≤ N := by
  calc (ancestors N f x).card ≤ (Finset.range N).card :=
    Finset.card_le_card (Finset.filter_subset _ _)
  _ = N := Finset.card_range N

lemma not_periodic_src {f : Nat → Nat} {si x : Nat} (hfsi : f si = x)
    (hx : ¬ IsPeriodicNode f x) : ¬ IsPeriodicNode f si := by
  intro hsi
  have := periodic_iterate hsi 1
  simp only [Function.iterate_one, hfsi] at this
  exact hx this

lemma ancestors_sub {N : Nat} {f : Nat → Nat} (dom : ∀ i, i < N → f i < N)
    {si x : Nat} (hfsi : f si = x) :
    ancestors N f si ⊆ ancestors N f x := by
  intro y hy
  obtain ⟨hyN, k, hk⟩ := (mem_ancestors dom).1 hy
  exact (mem_ancestors dom).2 ⟨hyN, k + 1, by
    rw [Function.iterate_succ_apply', hk, hfsi]⟩

lemma not_mem_ancestors_of_transient {N : Nat} {f : Nat → Nat}
    (dom : ∀ i, i < N → f i < N) {si x : Nat}
    (hsi : ¬ IsPeriodicNode f si) (hx : IsPeriodicNode f x) :
    x ∉ ancestors N f si := by
  intro hmem
  obtain ⟨_, k, hk⟩ := (mem_ancestors dom).1 hmem
  exact hsi (hk ▸ periodic_iterate hx k)

lemma ancestors_disjoint {N : Nat} {f : Nat → Nat}
    (dom : ∀ i, i < N → f i < N) {x : Nat} (hx : ¬ IsPeriodicNode f x)
    {si sj : Nat} (hi : f si = x) (hj : f sj = x) (hij : si ≠ sj) :
    Disjoint (ancestors N f si) (ancestors N f sj) := by
  rw [Finset.disjoint_left]
  intro y hyi hyj
  obtain ⟨hyN, a, ha⟩ := (mem_ancestors dom).1 hyi
  obtain ⟨_, b, hb⟩ := (mem_ancestors dom).1 hyj
  rcases Nat.lt_trichotomy a b with hab | hab | hab
  · -- sj = f^[b-a] si with f si = x, so x is periodic: contradiction
    obtain ⟨c, hc⟩ : ∃ c, b - a = c + 1 := ⟨b - a - 1, by omega⟩
    have h1 : f^[c + 1] si = sj := by
      rw [← hc, ← ha, ← Function.iterate_add_apply]
      have hba : b - a + a = b := by omega
      rw [hba, hb]
    have h2 : f^[c + 1] si = f^[c] x := by
      rw [Function.iterate_succ_apply, hi]
    have h3 : f^[c + 1] x = x := by
      rw [Function.iterate_succ_apply', ← h2, h1, hj]
    exact hx ⟨c + 1, by omega, h3⟩
  · exact hij (by rw [← ha, ← hb, hab])
  · obtain ⟨c, hc⟩ : ∃ c, a - b = c + 1 := ⟨a - b - 1, by omega⟩
    have h1 : f^[c + 1] sj = si := by
      rw [← hc, ← hb, ← Function.iterate_add_apply]
      have hba : a - b + b = a := by omega
      rw [hba, ha]
    have h2 : f^[c + 1] sj = f^[c] x := by
      rw [Function.iterate_succ_apply, hj]
    have h3 : f^[c + 1] x = x := by
      rw [Function.iterate_succ_apply', ← h2, h1, hi]
    exact hx ⟨c + 1, by omega, h3⟩

lemma ancestors_decomp {N : Nat} {f : Nat → Nat} (dom : ∀ i, i < N → f i < N)
    {x : Nat} (hx : x < N) (hxp : ¬ IsPeriodicNode f x) :
    ancestors N f x =
      insert x (((Finset.range N).filter (fun m => f m = x)).biUnion
        (fun si => ancestors N f si)) := by
  ext y
  rw [Finset.mem_insert, Finset.mem_biUnion, mem_ancestors dom]
  constructor
  · rintro ⟨hyN, k, hk⟩
    by_cases hyx : y = x
    · exact Or.inl hyx
    · have hk0 : 0 < k := by
        rcases Nat.eq_zero_or_pos k with rfl | h
        · exact absurd hk hyx
        · exact h
      refine Or.inr ⟨f^[k - 1] y, ?_, ?_⟩
      · refine Finset.mem_filter.2 ⟨Finset.mem_range.2 (iterate_lt dom hyN _), ?_⟩
        rw [← Function.iterate_succ_apply' f (k - 1) y]
        have hks : (k - 1).succ = k := by omega
        rw [hks, hk]
      · exact (mem_ancestors dom).2 ⟨hyN, k - 1, rfl⟩
  · rintro (rfl | ⟨si, hsi, hysi⟩)
    · exact ⟨hx, 0, rfl⟩
    · obtain ⟨hsiN, hfsi⟩ := Finset.mem_filter.1 hsi
      obtain ⟨hyN, m, hm⟩ := (mem_ancestors dom).1 hysi
      exact ⟨hyN, m + 1, by rw [Function.iterate_succ_apply', hm, hfsi]⟩

lemma x_not_mem_child_ancestors {N : Nat} {f : Nat → Nat}
    (dom : ∀ i, i < N → f i < N) {x si : Nat} (hfsi : f si = x)
    (hxp : ¬ IsPeriodicNode f x) : x ∉ ancestors N f si := by
  intro hmem
  obtain ⟨_, k, hk⟩ := (mem_ancestors dom).1 hmem
  exact hxp ⟨k + 1, by omega, by rw [Function.iterate_succ_apply', hk, hfsi]⟩

lemma card_ancestors_eq {N : Nat} {f : Nat → Nat}
    (dom : ∀ i, i < N → f i < N) {x : Nat} (hx : x < N)
    (hxp : ¬ IsPeriodicNode f x) :
    (ancestors N f x).card =
      1 + ∑ si ∈ (Finset.range N).filter (fun m => f m = x),
        (ancestors N f si).card := by
  rw [ancestors_decomp dom hx hxp]
  rw [Finset.card_insert_of_not_mem ?hnot]
  case hnot =>
    intro hmem
    obtain ⟨si, hsi, hxmem⟩ := Finset.mem_biUnion.1 hmem
    exact x_not_mem_child_ancestors dom (Finset.mem_filter.1 hsi).2 hxp hxmem
  rw [Finset.card_biUnion ?hdisj]
  · omega
  case hdisj =>
    intro si hsi sj hsj hij
    exact ancestors_disjoint dom hxp (Finset.mem_filter.1 hsi).2
      (Finset.mem_filter.1 hsj).2 hij

lemma list_filter_map_sum (v : Nat → Nat) (p : Nat → Bool) :
    ∀ N : Nat, (((List.range N).filter p).map v).sum =
      ∑ m ∈ (Finset.range N).filter (fun m => p m = true), v m := by
  intro N
  induction N with
  | zero => simp
  | succ N ih =>
    rw [List.range_succ, List.filter_append, List.map_append, List.sum_append,
      ih, Finset.range_succ, Finset.filter_insert]
    by_cases hp : p N = true
    · rw [if_pos hp, Finset.sum_insert (by simp)]
      have hfil : List.filter p [N] = [N] := by
        simp [List.filter_cons, hp]
      rw [hfil]
      simp only [List.map_cons, List.map_nil, List.sum_cons, List.sum_nil]
      omega
    · rw [if_neg hp]
      have hfil : List.filter p [N] = [] := by
        simp [List.filter_cons, hp]
      rw [hfil]
      simp

lemma countSrcs_eq_card {N : Nat} {f : Nat → Nat} {n : Nodes}
    (wf : WFGraph N f n) :
    ∀ (m x : Nat), x < N → ¬ IsPeriodicNode f x →
      (ancestors N f x).card ≤ m →
      countSrcs m n (idx n x) = some ((ancestors N f x).card) := by
  intro m
  induction m with
  | zero =>
    intro x hx _ hcard
    have h1 : 0 < (ancestors N f x).card :=
      Finset.card_pos.2 ⟨x, self_mem_ancestors wf.dom hx⟩
    omega
  | succ m ih =>
    intro x hx hxp hcard
    have hchild : ∀ si ∈ (idx n x).Srcs,
        countSrcs m n (idx n si) = some ((ancestors N f si).card) := by
      intro si hsi
      obtain ⟨hsiN, hfsi⟩ := (wf.mem_srcs hx).1 hsi
      have hsit : ¬ IsPeriodicNode f si := not_periodic_src hfsi hxp
      have hlt : (ancestors N f si).card < (ancestors N f x).card := by
        refine Finset.card_lt_card ⟨ancestors_sub wf.dom hfsi, ?_⟩
        intro hsup
        exact x_not_mem_child_ancestors wf.dom hfsi hxp
          (hsup (self_mem_ancestors wf.dom hx))
      exact ih si hsiN hsit (by omega)
    rw [show countSrcs (m + 1) n (idx n x) =
      (optSum (fun si => countSrcs m n (idx n si))
        (idx n x).Srcs).map (fun s => 1 + s) from rfl]
    rw [optSum_eq_map_sum _ hchild, Option.map_some']
    congr 1
    have hsrcs : (idx n x).Srcs = (List.range N).filter (fun j => f j = x) := by
      rw [wf.at_idx x hx]
    rw [hsrcs, list_filter_map_sum (fun si => (ancestors N f si).card) _ N]
    rw [card_ancestors_eq wf.dom hx hxp]
    congr 1
    apply Finset.sum_congr ?_ (fun _ _ => rfl)
    apply Finset.filter_congr
    intro m _
    simp

lemma countSrcs_none_periodic {N : Nat} {f : Nat → Nat} {n : Nodes}
    (wf : WFGraph N f n) :
    ∀ (fuel x : Nat), x < N → IsPeriodicNode f x →
      countSrcs fuel n (idx n x) = none := by
  intro fuel
  induction fuel with
  | zero => intro x _ _; rfl
  | succ fuel ih =>
    intro x hx hp
    have hL0 : 0 < Function.minimalPeriod f x := minimalPeriod_pos hp
    have hpre : f (f^[Function.minimalPeriod f x - 1] x) = x := by
      rw [← Function.iterate_succ_apply' f (Function.minimalPeriod f x - 1) x]
      have hks : (Function.minimalPeriod f x - 1).succ =
          Function.minimalPeriod f x := by omega
      rw [hks]
      exact iterate_minPeriod x
    have hpN : f^[Function.minimalPeriod f x - 1] x < N := iterate_lt wf.dom hx _
    have hmem : f^[Function.minimalPeriod f x - 1] x ∈ (idx n x).Srcs :=
      (wf.mem_srcs hx).2 ⟨hpN, hpre⟩
    have hper : IsPeriodicNode f (f^[Function.minimalPeriod f x - 1] x) :=
      periodic_iterate hp _
    rw [show countSrcs (fuel + 1) n (idx n x) =
      (optSum (fun si => countSrcs fuel n (idx n si))
        (idx n x).Srcs).map (fun s => 1 + s) from rfl]
    rw [optSum_none_of_mem _ ⟨_, hmem, ih _ hpN hper⟩]
    rfl

lemma optMaxSrcs_some {g : Nat → Option Nat} :
    ∀ l : List Nat, (∀ si ∈ l, (g si).isSome = true) →
      (optMaxSrcs [] g l).isSome = true := by
  intro l
  induction l with
  | nil => intro _; rfl
  | cons a l ih =>
    intro h
    obtain ⟨c, hc⟩ := Option.isSome_iff_exists.1 (h a (by simp))
    have hrest := ih (fun si hsi => h si (by simp [hsi]))
    obtain ⟨m, hm⟩ := Option.isSome_iff_exists.1 hrest
    rw [show optMaxSrcs [] g (a :: l) =
      (if ([] : Nodes).any (fun en => en.Num == a) then optMaxSrcs [] g l
       else match g a, optMaxSrcs [] g l with
        | some c, some m => some (max c m)
        | _, _ => none) from rfl]
    simp only [List.any_nil, Bool.false_eq_true, if_false]
    rw [hc, hm]
    rfl

lemma nodeLevels_terminates {N : Nat} {f : Nat → Nat} {n : Nodes}
    (wf : WFGraph N f n) :
    ∀ (m x : Nat), x < N → ¬ IsPeriodicNode f x →
      (ancestors N f x).card ≤ m →
      (nodeLevels m n (idx n x) []).isSome = true := by
  intro m
  induction m with
  | zero =>
    intro x hx _ hcard
    have h1 : 0 < (ancestors N f x).card :=
      Finset.card_pos.2 ⟨x, self_mem_ancestors wf.dom hx⟩
    omega
  | succ m ih =>
    intro x hx hxp hcard
    rw [show nodeLevels (m + 1) n (idx n x) [] =
      (optMaxSrcs [] (fun sni => nodeLevels m n (idx n sni) [])
        (idx n x).Srcs).map (fun mx => mx + 1) from rfl]
    rw [Option.isSome_map']
    apply optMaxSrcs_some
    intro si hsi
    obtain ⟨hsiN, hfsi⟩ := (wf.mem_srcs hx).1 hsi
    have hsit : ¬ IsPeriodicNode f si := not_periodic_src hfsi hxp
    have hlt : (ancestors N f si).card < (ancestors N f x).card := by
      refine Finset.card_lt_card ⟨ancestors_sub wf.dom hfsi, ?_⟩
      intro hsup
      exact x_not_mem_child_ancestors wf.dom hfsi hxp
        (hsup (self_mem_ancestors wf.dom hx))
    exact ih si hsiN hsit (by omega)

/-- C10: over any graph of `createNodes` shape, (a) `countSrcs(n, x)` and
`nodeLevels(n, x, nil)` terminate for every transient `x` — the `Srcs`
relation restricted to transients is well-founded, with the inbound-tree
cardinality as termination measure; (b) the `drawLoop`/`drawNode` call sites
preserve this precondition: a child of a cycle member that is outside the
excluded cycle is transient (its `countSrcs` and `nodeLevels` calls
terminate); (c) on a cycle member with no exclusion, `countSrcs` does not
terminate at any recursion depth. -/
theorem C10_countSrcs_termination :
    (∀ (N : Nat) (f : Nat → Nat) (n : Nodes), WFGraph N f n →
      ∀ x, x < N → ¬ IsPeriodicNode f x →
      ∃ fuel, (countSrcs fuel n (idx n x)).isSome = true ∧
        (nodeLevels fuel n (idx n x) []).isSome = true) ∧
    (∀ (N : Nat) (f : Nat → Nat) (n : Nodes), WFGraph N f n →
      ∀ (loop : Nodes) (x : Nat), x < N → IsPeriodicNode f x →
      (∀ y, isInSet loop y = true ↔ ∃ t, f^[t] x = y) →
      ∀ si ∈ (idx n x).Srcs, isInSet loop si = false →
      ¬ IsPeriodicNode f si ∧
        ∃ fuel, (countSrcs fuel n (idx n si)).isSome = true ∧
          (nodeLevels fuel n (idx n si) []).isSome = true) ∧
    (∀ (N : Nat) (f : Nat → Nat) (n : Nodes), WFGraph N f n →
      ∀ x, x < N → IsPeriodicNode f x →
      ∀ fuel, countSrcs fuel n (idx n x) = none) := by
  have hterm : ∀ (N : Nat) (f : Nat → Nat) (n : Nodes), WFGraph N f n →
      ∀ x, x < N → ¬ IsPeriodicNode f x →
      ∃ fuel, (countSrcs fuel n (idx n x)).isSome = true ∧
        (nodeLevels fuel n (idx n x) []).isSome = true := by
    intro N f n wf x hx hxp
    refine ⟨(ancestors N f x).card, ?_, ?_⟩
    · rw [countSrcs_eq_card wf _ x hx hxp le_rfl]
      rfl
    · exact nodeLevels_terminates wf _ x hx hxp le_rfl
  refine ⟨hterm, ?_, ?_⟩
  · intro N f n wf loop x hx hp hloop si hsi hout
    obtain ⟨hsiN, hfsi⟩ := (wf.mem_srcs hx).1 hsi
    have hsit : ¬ IsPeriodicNode f si := by
      intro hper
      obtain ⟨t, ht⟩ := periodic_preimage_on_cycle hper hfsi
      rw [(hloop si).2 ⟨t, ht⟩] at hout
      exact Bool.true_eq_false ▸ hout
    exact ⟨hsit, hterm N f n wf si hsiN hsit⟩
  · intro N f n wf x hx hp fuel
    exact countSrcs_none_periodic wf fuel x hx hp

/-- Graph over domain `{0, 1}` with transform `f = const 0`: node `0` is a
self-loop cycle, node `1` is transient and feeds it. -/
def twoNodeGraph : Nodes := [⟨0, 0, [0, 1]⟩, ⟨1, 0, []⟩]

lemma twoNodeGraph_wf : WFGraph 2 (fun _ => 0) twoNodeGraph := by
  refine ⟨rfl, by decide, ?_⟩
  intro i hi
  interval_cases i <;> rfl

lemma const_zero_iterate (t y : Nat) :
    (fun _ : Nat => 0)^[t] y = if t = 0 then y else 0 := by
  cases t with
  | zero => rfl
  | succ t =>
    rw [Function.iterate_succ_apply]
    simp [Function.iterate_fixed]

lemma twoNode_one_transient : ¬ IsPeriodicNode (fun _ => 0) 1 := by
  rintro ⟨k, hk, h⟩
  rw [const_zero_iterate, if_neg (by omega : ¬ k = 0)] at h
  omega

lemma twoNode_loop_iff : ∀ y, isInSet [(⟨0, 0, [0, 1]⟩ : Node)] y = true ↔
    ∃ t, (fun _ : Nat => 0)^[t] 0 = y := by
  intro y
  constructor
  · intro h
    have hy : y = 0 := by
      simp [isInSet] at h
      omega
    exact ⟨0, by simp [hy]⟩
  · rintro ⟨t, ht⟩
    have h0 : (fun _ : Nat => 0)^[t] 0 = 0 := Function.iterate_fixed rfl t
    rw [h0] at ht
    simp [isInSet, ← ht]

theorem C10_countSrcs_termination_witness :
    (∃ fuel, (countSrcs fuel twoNodeGraph (idx twoNodeGraph 1)).isSome = true ∧
      (nodeLevels fuel twoNodeGraph (idx twoNodeGraph 1) []).isSome = true) ∧
    (¬ IsPeriodicNode (fun _ => 0) 1 ∧
      ∃ fuel, (countSrcs fuel twoNodeGraph (idx twoNodeGraph 1)).isSome = true ∧
        (nodeLevels fuel twoNodeGraph (idx twoNodeGraph 1) []).isSome = true) ∧
    (∀ fuel, countSrcs fuel twoNodeGraph (idx twoNodeGraph 0) = none) :=
  ⟨C10_countSrcs_termination.1 2 (fun _ => 0) twoNodeGraph twoNodeGraph_wf 1
      (by omega) twoNode_one_transient,
   C10_countSrcs_termination.2.1 2 (fun _ => 0) twoNodeGraph twoNodeGraph_wf
      [⟨0, 0, [0, 1]⟩] 0 (by omega) ⟨1, Nat.one_pos, rfl⟩ twoNode_loop_iff 1
      (by decide) (by decide),
   C10_countSrcs_termination.2.2 2 (fun _ => 0) twoNodeGraph twoNodeGraph_wf 0
      (by omega) ⟨1, Nat.one_pos, rfl⟩⟩

/-! ### First periodic hit of an orbit, and the fiber partition (for C6) -/

/-- Bounded periodicity test: some period in `[1, N]` returns to `x`
(complete for `x < N` since a minimal period is at most `N`). -/
def isPeriodicB (N : Nat) (f : Nat → Nat) (x : Nat) : Bool :=
  (List.range N).any (fun j => f^[j + 1] x == x)

lemma isPeriodicB_iff {N : Nat} {f : Nat → Nat} (dom : ∀ i, i < N → f i < N)
    {x : Nat} (hx : x < N) : isPeriodicB N f x = true ↔ IsPeriodicNode f x := by
  unfold isPeriodicB
  rw [List.any_eq_true]
  constructor
  · rintro ⟨j, _, hj⟩
    exact ⟨j + 1, by omega, by simpa using hj⟩
  · intro hp
    have hL0 : 0 < Function.minimalPeriod f x := minimalPeriod_pos hp
    have hLN : Function.minimalPeriod f x ≤ N := minimalPeriod_le_N dom hx
    refine ⟨Function.minimalPeriod f x - 1, List.mem_range.2 (by omega), ?_⟩
    have : Function.minimalPeriod f x - 1 + 1 = Function.minimalPeriod f x := by
      omega
    rw [this]
    simp [iterate_minPeriod]

/-- The least index below the bound satisfying `p`, if any. -/
def leastUpto (p : Nat → Bool) : Nat → Option Nat
  | 0 => none
  | k + 1 =>
    match leastUpto p k with
    | some j => some j
    | none => if p k then some k else none

lemma leastUpto_succ (p : Nat → Bool) (k : Nat) :
    leastUpto p (k + 1) = match leastUpto p k with
      | some j => some j
      | none => if p k then some k else none := rfl

lemma leastUpto_eq_none {p : Nat → Bool} :
    ∀ m, leastUpto p m = none → ∀ i, i < m → p i = false := by
  intro m
  induction m with
  | zero => intro _ i hi; omega
  | succ m ih =>
    intro h i hi
    rw [leastUpto_succ] at h
    cases hm : leastUpto p m with
    | some j => rw [hm] at h; exact absurd h (by simp)
    | none =>
      rw [hm] at h
      by_cases hpm : p m = true
      · rw [if_pos hpm] at h
        exact absurd h (by simp)
      · rcases Nat.lt_or_ge i m with him | him
        · exact ih hm i him
        · have : i = m := by omega
          rw [this]
          exact Bool.not_eq_true _ ▸ hpm

lemma leastUpto_eq_some {p : Nat → Bool} :
    ∀ m j, leastUpto p m = some j →
      p j = true ∧ j < m ∧ ∀ i, i < j → p i = false := by
  intro m
  induction m with
  | zero => intro j h; exact absurd h (by simp [leastUpto])
  | succ m ih =>
    intro j h
    rw [leastUpto_succ] at h
    cases hm : leastUpto p m with
    | some j' =>
      rw [hm] at h
      have hjj : j' = j := by simpa using h
      subst hjj
      obtain ⟨h1, h2, h3⟩ := ih j' hm
      exact ⟨h1, by omega, h3⟩
    | none =>
      rw [hm] at h
      by_cases hpm : p m = true
      · rw [if_pos hpm] at h
        obtain rfl : m = j := by simpa using h
        exact ⟨hpm, by omega, leastUpto_eq_none m hm⟩
      · rw [if_neg hpm] at h
        exact absurd h (by simp)

lemma leastUpto_isSome {p : Nat → Bool} {m j : Nat} (hj : j < m)
    (hp : p j = true) : ∃ j', leastUpto p m = some j' := by
  cases h : leastUpto p m with
  | some j' => exact ⟨j', rfl⟩
  | none => exact absurd hp (by rw [leastUpto_eq_none m h j hj]; simp)

/-- Number of steps until the forward orbit of `y` first reaches a periodic
value (`0` when `y` itself is periodic). -/
def hitTime (N : Nat) (f : Nat → Nat) (y : Nat) : Nat :=
  (leastUpto (fun k => isPeriodicB N f (f^[k] y)) (N + 1)).getD 0

/-- The first periodic value on the forward orbit of `y`. -/
def firstHit (N : Nat) (f : Nat → Nat) (y : Nat) : Nat := f^[hitTime N f y] y

lemma hitTime_spec {N : Nat} {f : Nat → Nat} (dom : ∀ i, i < N → f i < N)
    {y : Nat} (hy : y < N) :
    isPeriodicB N f (f^[hitTime N f y] y) = true ∧
      ∀ i, i < hitTime N f y → isPeriodicB N f (f^[i] y) = false := by
  obtain ⟨k, hkN, hper⟩ := eventually_periodic dom hy
  have hpk : isPeriodicB N f (f^[k] y) = true :=
    (isPeriodicB_iff dom (iterate_lt dom hy k)).2 hper
  obtain ⟨j, hj⟩ := leastUpto_isSome (p := fun k => isPeriodicB N f (f^[k] y))
    (m := N + 1) (by omega) hpk
  obtain ⟨h1, _, h3⟩ := leastUpto_eq_some _ _ hj
  have hht : hitTime N f y = j := by
    unfold hitTime
    rw [hj]
    rfl
  rw [hht]
  exact ⟨h1, h3⟩

lemma firstHit_periodic {N : Nat} {f : Nat → Nat} (dom : ∀ i, i < N → f i < N)
    {y : Nat} (hy : y < N) : IsPeriodicNode f (firstHit N f y) :=
  (isPeriodicB_iff dom (iterate_lt dom hy _)).1 (hitTime_spec dom hy).1

lemma firstHit_lt {N : Nat} {f : Nat → Nat} (dom : ∀ i, i < N → f i < N)
    {y : Nat} (hy : y < N) : firstHit N f y < N :=
  iterate_lt dom hy _

lemma hitTime_eq_zero {N : Nat} {f : Nat → Nat} (dom : ∀ i, i < N → f i < N)
    {y : Nat} (hy : y < N) (hp : IsPeriodicNode f y) : hitTime N f y = 0 := by
  by_contra h
  have := (hitTime_spec dom hy).2 0 (by omega)
  rw [Function.iterate_zero_apply] at this
  rw [(isPeriodicB_iff dom hy).2 hp] at this
  exact absurd this (by simp)

lemma firstHit_eq_self {N : Nat} {f : Nat → Nat} (dom : ∀ i, i < N → f i < N)
    {y : Nat} (hy : y < N) (hp : IsPeriodicNode f y) : firstHit N f y = y := by
  unfold firstHit
  rw [hitTime_eq_zero dom hy hp]
  exact Function.iterate_zero_apply f y

/-- If `y` reaches a transient child `si` of a periodic `x` in `k < N` steps,
then `x` is the first periodic hit of `y`. -/
lemma firstHit_through_child {N : Nat} {f : Nat → Nat}
    (dom : ∀ i, i < N → f i < N) {x si y k : Nat} (hy : y < N) (hx : x < N)
    (hxp : IsPeriodicNode f x) (hfsi : f si = x)
    (hsit : ¬ IsPeriodicNode f si) (hk : f^[k] y = si) :
    firstHit N f y = x := by
  have htrans : ∀ j, j ≤ k → ¬ IsPeriodicNode f (f^[j] y) := by
    intro j hj hper
    have : f^[k - j] (f^[j] y) = si := by
      rw [← Function.iterate_add_apply]
      have : k - j + j = k := by omega
      rw [this, hk]
    exact hsit (this ▸ periodic_iterate hper (k - j))
  have hpk1 : isPeriodicB N f (f^[k + 1] y) = true := by
    rw [Function.iterate_succ_apply', hk, hfsi]
    exact (isPeriodicB_iff dom hx).2 hxp
  obtain ⟨h1, h2⟩ := hitTime_spec dom hy
  have hht : hitTime N f y = k + 1 := by
    rcases Nat.lt_trichotomy (hitTime N f y) (k + 1) with h | h | h
    · exfalso
      have := htrans (hitTime N f y) (by omega)
      rw [← isPeriodicB_iff dom (iterate_lt dom hy _)] at this
      exact this h1
    · exact h
    · exfalso
      have := h2 (k + 1) h
      rw [hpk1] at this
      exact absurd this (by simp)
  unfold firstHit
  rw [hht, Function.iterate_succ_apply', hk, hfsi]

lemma ancestors_disjoint_of_periodic {N : Nat} {f : Nat → Nat}
    (dom : ∀ i, i < N → f i < N) {x : Nat} (hx : IsPeriodicNode f x)
    {si sj : Nat} (hfsi : f si = x) (hfsj : f sj = x)
    (hsit : ¬ IsPeriodicNode f si) (hsjt : ¬ IsPeriodicNode f sj)
    (hij : si ≠ sj) : Disjoint (ancestors N f si) (ancestors N f sj) := by
  rw [Finset.disjoint_left]
  intro y hyi hyj
  obtain ⟨hyN, a, ha⟩ := (mem_ancestors dom).1 hyi
  obtain ⟨_, b, hb⟩ := (mem_ancestors dom).1 hyj
  rcases Nat.lt_trichotomy a b with hab | hab | hab
  · obtain ⟨c, hc⟩ : ∃ c, b - a = c + 1 := ⟨b - a - 1, by omega⟩
    have h1 : f^[c + 1] si = sj := by
      rw [← hc, ← ha, ← Function.iterate_add_apply]
      have hba : b - a + a = b := by omega
      rw [hba, hb]
    have h2 : f^[c] x = sj := by
      rw [← h1, Function.iterate_succ_apply, hfsi]
    exact hsjt (h2 ▸ periodic_iterate hx c)
  · exact hij (by rw [← ha, ← hb, hab])
  · obtain ⟨c, hc⟩ : ∃ c, a - b = c + 1 := ⟨a - b - 1, by omega⟩
    have h1 : f^[c + 1] sj = si := by
      rw [← hc, ← hb, ← Function.iterate_add_apply]
      have hba : a - b + b = a := by omega
      rw [hba, ha]
    have h2 : f^[c] x = si := by
      rw [← h1, Function.iterate_succ_apply, hfsj]
    exact hsit (h2 ▸ periodic_iterate hx c)

lemma fiber_decomp {N : Nat} {f : Nat → Nat} (dom : ∀ i, i < N → f i < N)
    {x : Nat} (hxN : x < N) (hxp : IsPeriodicNode f x) :
    (Finset.range N).filter (fun y => firstHit N f y = x) =
      insert x (((Finset.range N).filter
        (fun m => f m = x ∧ isPeriodicB N f m = false)).biUnion
        (fun si => ancestors N f si)) := by
  ext y
  rw [Finset.mem_filter, Finset.mem_range, Finset.mem_insert, Finset.mem_biUnion]
  constructor
  · rintro ⟨hyN, hfh⟩
    by_cases hyx : y = x
    · exact Or.inl hyx
    · have hht : hitTime N f y ≠ 0 := by
        intro h0
        apply hyx
        rw [← hfh]
        unfold firstHit
        rw [h0]
        exact (Function.iterate_zero_apply f y).symm
      obtain ⟨c, hc⟩ : ∃ c, hitTime N f y = c + 1 := ⟨hitTime N f y - 1, by omega⟩
      refine Or.inr ⟨f^[c] y, Finset.mem_filter.2
        ⟨Finset.mem_range.2 (iterate_lt dom hyN c), ?_, ?_⟩,
        (mem_ancestors dom).2 ⟨hyN, c, rfl⟩⟩
      · rw [← Function.iterate_succ_apply' f c y]
        have hcs : c.succ = hitTime N f y := by omega
        rw [hcs]
        exact hfh
      · exact (hitTime_spec dom hyN).2 c (by omega)
  · rintro (rfl | ⟨si, hsi, hysi⟩)
    · exact ⟨hxN, firstHit_eq_self dom hxN hxp⟩
    · obtain ⟨hsiN', hfsi, hsiB⟩ := Finset.mem_filter.1 hsi
      have hsiN : si < N := Finset.mem_range.1 hsiN'
      have hsit : ¬ IsPeriodicNode f si := by
        intro hper
        rw [(isPeriodicB_iff dom hsiN).2 hper] at hsiB
        exact absurd hsiB (by simp)
      obtain ⟨hyN, hk⟩ := (mem_ancestors dom).1 hysi
      obtain ⟨k, _, hk⟩ := reaches_bound dom hyN hk
      exact ⟨hyN, firstHit_through_child dom hyN hxN hxp hfsi hsit hk⟩

lemma fiber_card {N : Nat} {f : Nat → Nat} (dom : ∀ i, i < N → f i < N)
    {x : Nat} (hxN : x < N) (hxp : IsPeriodicNode f x) :
    ((Finset.range N).filter (fun y => firstHit N f y = x)).card =
      1 + ∑ si ∈ (Finset.range N).filter
          (fun m => f m = x ∧ isPeriodicB N f m = false),
        (ancestors N f si).card := by
  rw [fiber_decomp dom hxN hxp]
  rw [Finset.card_insert_of_not_mem ?hnot]
  case hnot =>
    intro hmem
    obtain ⟨si, hsi, hxmem⟩ := Finset.mem_biUnion.1 hmem
    obtain ⟨hsiN', _, hsiB⟩ := Finset.mem_filter.1 hsi
    have hsit : ¬ IsPeriodicNode f si := by
      intro hper
      rw [(isPeriodicB_iff dom (Finset.mem_range.1 hsiN')).2 hper] at hsiB
      exact absurd hsiB (by simp)
    exact not_mem_ancestors_of_transient dom hsit hxp hxmem
  rw [Finset.card_biUnion ?hdisj]
  · omega
  case hdisj =>
    intro si hsi sj hsj hij
    obtain ⟨hsiN', hfsi, hsiB⟩ := Finset.mem_filter.1 hsi
    obtain ⟨hsjN', hfsj, hsjB⟩ := Finset.mem_filter.1 hsj
    have hsit : ¬ IsPeriodicNode f si := by
      intro hper
      rw [(isPeriodicB_iff dom (Finset.mem_range.1 hsiN')).2 hper] at hsiB
      exact absurd hsiB (by simp)
    have hsjt : ¬ IsPeriodicNode f sj := by
      intro hper
      rw [(isPeriodicB_iff dom (Finset.mem_range.1 hsjN')).2 hper] at hsjB
      exact absurd hsjB (by simp)
    exact ancestors_disjoint_of_periodic dom hxp hfsi hfsj hsit hsjt hij

lemma fiber_partition {N : Nat} {f : Nat → Nat}
    (dom : ∀ i, i < N → f i < N) :
    ∑ x ∈ (Finset.range N).filter (fun x => isPeriodicB N f x = true),
      ((Finset.range N).filter (fun y => firstHit N f y = x)).card = N := by
  have hmaps : ∀ y ∈ Finset.range N, firstHit N f y ∈
      (Finset.range N).filter (fun x => isPeriodicB N f x = true) := by
    intro y hy
    have hyN := Finset.mem_range.1 hy
    exact Finset.mem_filter.2 ⟨Finset.mem_range.2 (firstHit_lt dom hyN),
      (isPeriodicB_iff dom (firstHit_lt dom hyN)).2 (firstHit_periodic dom hyN)⟩
  have := Finset.card_eq_sum_card_fiberwise hmaps
  rw [Finset.card_range] at this
  exact this.symm

/-! ### Subtree size conservation (C6) -/

/-- The excluded-subtree size of cycle member `m`, as the spec verifies it
against `countSrcs`: `1` (the member) plus `countSrcs` of every child of `m`
outside the cycle — exactly the weight `drawLoop` computes for `m` plus one. -/
def exclSubtreeSize (n : Nodes) (loop : Nodes) (m : Node) : Nat :=
  1 + ((m.Srcs.filter (fun si => !isInSet loop si)).map
    (fun si => countSrcsVal n si)).sum

/-- The grand total of `exclSubtreeSize` over every member of every cycle. -/
def loopsSubtreeTotal (n : Nodes) (loops : List Nodes) : Nat :=
  (loops.map (fun ℓ => (ℓ.map (fun m => exclSubtreeSize n ℓ m)).sum)).sum

lemma isInSet_iff (l : Nodes) (z : Nat) :
    isInSet l z = true ↔ ∃ nd ∈ l, nd.Num = z := by
  simp [isInSet]

lemma isInSet_cycle_iff {N f n} (wf : WFGraph N f n) {i : Nat} (hiN : i < N)
    (hip : IsPeriodicNode f i) (z : Nat) :
    isInSet ((List.range (Function.minimalPeriod f i)).map
      (fun s => idx n (f^[s] i))) z = true ↔ ∃ t, f^[t] i = z := by
  rw [isInSet_iff]
  constructor
  · rintro ⟨nd, hnd, hnum⟩
    obtain ⟨s, _, rfl⟩ := List.mem_map.1 hnd
    rw [wf.num_eq (iterate_lt wf.dom hiN s)] at hnum
    exact ⟨s, hnum⟩
  · rintro ⟨t, ht⟩
    refine ⟨idx n (f^[t % Function.minimalPeriod f i] i), List.mem_map.2
      ⟨t % Function.minimalPeriod f i,
        List.mem_range.2 (Nat.mod_lt _ (minimalPeriod_pos hip)), rfl⟩, ?_⟩
    rw [wf.num_eq (iterate_lt wf.dom hiN _),
      Function.iterate_mod_minimalPeriod_eq, ht]

lemma exclSubtreeSize_eq_fiber {N f n} (wf : WFGraph N f n) {i : Nat}
    (hiN : i < N) (hip : IsPeriodicNode f i) (s : Nat) :
    exclSubtreeSize n
      ((List.range (Function.minimalPeriod f i)).map (fun t => idx n (f^[t] i)))
      (idx n (f^[s] i)) =
    ((Finset.range N).filter (fun y => firstHit N f y = f^[s] i)).card := by
  have hxN : f^[s] i < N := iterate_lt wf.dom hiN s
  have hxp : IsPeriodicNode f (f^[s] i) := periodic_iterate hip s
  rw [fiber_card wf.dom hxN hxp]
  unfold exclSubtreeSize
  congr 1
  have hsrcs : (idx n (f^[s] i)).Srcs =
      (List.range N).filter (fun j => f j = f^[s] i) := by
    rw [wf.at_idx _ hxN]
  rw [hsrcs, List.filter_filter]
  -- pointwise: for children of f^[s] i, being outside the cycle is being
  -- transient, and countSrcsVal is the inbound-tree cardinality
  have hmapeq : ∀ si ∈ (List.range N).filter
      (fun a => (!isInSet ((List.range (Function.minimalPeriod f i)).map
        (fun t => idx n (f^[t] i))) a) && decide (f a = f^[s] i)),
      countSrcsVal n si = (ancestors N f si).card := by
    intro si hsi
    obtain ⟨hsiR, hcond⟩ := List.mem_filter.1 hsi
    have hsiN : si < N := List.mem_range.1 hsiR
    rw [Bool.and_eq_true, Bool.not_eq_true', decide_eq_true_eq] at hcond
    obtain ⟨hout, hfsi⟩ := hcond
    have hsit : ¬ IsPeriodicNode f si := by
      intro hper
      obtain ⟨t₁, ht₁⟩ := periodic_preimage_on_cycle hper hfsi
      have : ∃ t, f^[t] i = si := ⟨t₁ + s, by
        rw [Function.iterate_add_apply, ht₁]⟩
      rw [(isInSet_cycle_iff wf hiN hip si).2 this] at hout
      exact absurd hout (by simp)
    unfold countSrcsVal
    rw [wf.len, countSrcs_eq_card wf N si hsiN hsit (ancestors_card_le f si)]
    rfl
  rw [List.map_congr_left hmapeq]
  rw [list_filter_map_sum (fun si => (ancestors N f si).card) _ N]
  apply Finset.sum_congr ?_ (fun _ _ => rfl)
  apply Finset.filter_congr
  intro j hj
  have hjN : j < N := Finset.mem_range.1 hj
  rw [Bool.and_eq_true, Bool.not_eq_true', decide_eq_true_eq]
  constructor
  · rintro ⟨hout, hfj⟩
    refine ⟨hfj, ?_⟩
    rw [← Bool.not_eq_true]
    intro hper
    have hper' : IsPeriodicNode f j := (isPeriodicB_iff wf.dom hjN).1 hper
    obtain ⟨t₁, ht₁⟩ := periodic_preimage_on_cycle hper' hfj
    have : ∃ t, f^[t] i = j := ⟨t₁ + s, by
      rw [Function.iterate_add_apply, ht₁]⟩
    rw [(isInSet_cycle_iff wf hiN hip j).2 this] at hout
    exact absurd hout (by simp)
  · rintro ⟨hfj, hjB⟩
    refine ⟨?_, hfj⟩
    rw [← Bool.not_eq_true]
    intro hin
    obtain ⟨t, ht⟩ := (isInSet_cycle_iff wf hiN hip j).1 hin
    have hper : IsPeriodicNode f j := ht ▸ periodic_iterate hip t
    rw [(isPeriodicB_iff wf.dom hjN).2 hper] at hjB
    exact absurd hjB (by simp)

lemma loop_sum_eq_fibers {N f n} (wf : WFGraph N f n) {i : Nat}
    (hiN : i < N) (hip : IsPeriodicNode f i) :
    (((List.range (Function.minimalPeriod f i)).map
        (fun t => idx n (f^[t] i))).map
      (fun m => exclSubtreeSize n
        ((List.range (Function.minimalPeriod f i)).map
          (fun t => idx n (f^[t] i))) m)).sum =
    ((((List.range (Function.minimalPeriod f i)).map
        (fun t => idx n (f^[t] i))).map Node.Num).map
      (fun x => ((Finset.range N).filter
        (fun y => firstHit N f y = x)).card)).sum := by
  rw [cycle_map_num wf hiN, List.map_map, List.map_map]
  apply congrArg
  apply List.map_congr_left
  intro t _
  exact exclSubtreeSize_eq_fiber wf hiN hip t

lemma sum_map_flat (R : List Nodes) (g : Nat → Nat) :
    (R.map (fun ℓ => ((ℓ.map Node.Num).map g).sum)).sum =
      ((R.flatMap (fun ℓ => ℓ.map Node.Num)).map g).sum := by
  induction R with
  | nil => rfl
  | cons a R ih =>
    rw [List.map_cons, List.sum_cons, List.flatMap_cons, List.map_append,
      List.sum_append, ih]

lemma list_nodup_map_sum (l : List Nat) (hnd : l.Nodup) (s : Finset Nat)
    (h : ∀ x, x ∈ l ↔ x ∈ s) (g : Nat → Nat) :
    (l.map g).sum = ∑ x ∈ s, g x := by
  have hts : l.toFinset = s := by
    ext x
    rw [List.mem_toFinset, h x]
  rw [← hts]
  exact (List.sum_toFinset g hnd).symm

/-- C6: for the graph built by `createNodes` and the cycle list found for it
(by `findLoops` then `dedupLoops`), the sum over all cycles of the sum over
each member of its excluded-subtree size — `1` plus `countSrcs(child)` for
every child of the member outside the cycle — equals the domain size
`numNodes`: every domain value is counted exactly once, in the branch of the
unique cycle member at which its forward orbit first becomes periodic. -/
theorem C6_subtree_size_conservation :
    loopsSubtreeTotal createNodes (dedupLoops (findLoops createNodes)) =
      numNodes := by
  have wf : WFGraph numNodes happifyColor createNodes :=
    createNodesG_wf numNodes happifyColor (fun i _ => by
      have := happifyColor_lt i
      have hN : numNodes = 2 ^ 24 := by norm_num [numNodes]
      omega)
  obtain ⟨hne, hnodup, heqd⟩ := findLoops_hyps wf
  obtain ⟨h1, h2, h3⟩ := dedupLoops_spec (findLoopsN numNodes createNodes)
    hne hnodup heqd
  unfold loopsSubtreeTotal
  rw [show findLoops createNodes = findLoopsN numNodes createNodes from rfl]
  have hstep1 : (dedupLoops (findLoopsN numNodes createNodes)).map
      (fun ℓ => (ℓ.map (fun m => exclSubtreeSize createNodes ℓ m)).sum) =
    (dedupLoops (findLoopsN numNodes createNodes)).map
      (fun ℓ => ((ℓ.map Node.Num).map
        (fun x => ((Finset.range numNodes).filter
          (fun y => firstHit numNodes happifyColor y = x)).card)).sum) := by
    apply List.map_congr_left
    intro ℓ hℓ
    obtain ⟨i, hiN, hip, rfl⟩ := (mem_findLoopsN wf ℓ).1 (h1 ℓ hℓ)
    exact loop_sum_eq_fibers wf hiN hip
  rw [hstep1, sum_map_flat]
  rw [list_nodup_map_sum _ h2
    ((Finset.range numNodes).filter
      (fun x => isPeriodicB numNodes happifyColor x = true)) ?hmem]
  case hmem =>
    intro x
    rw [h3 x, mem_flat_findLoopsN wf x, Finset.mem_filter, Finset.mem_range]
    constructor
    · rintro ⟨hxN, hp⟩
      exact ⟨hxN, (isPeriodicB_iff wf.dom hxN).2 hp⟩
    · rintro ⟨hxN, hB⟩
      exact ⟨hxN, (isPeriodicB_iff wf.dom hxN).1 hB⟩
  exact fiber_partition wf.dom

end HappyTree
